import Mathlib

/-!
Verification of the per-key resource cache, lock manager and retry policy of the
`prop` repository (`routes/csv/connect_db.py`, `routes/csv/sql_agent.py`,
`routes/llm_connections.py`), shallowly embedded in Lean 4.

The embedding keeps the source's names where Lean allows it:
`get_lock`, `get_engine`, `get_or_create_database`, `wait_exponential`, and the
`@retry(stop=stop_after_attempt(..), wait=RETRY_WAIT, retry=retry_if_exception_type(..))`
decorator from the `tenacity` library used by the source.

Organization: all definitions first, then the theorems.
-/

set_option linter.unusedVariables false

namespace PropCore

/-! ## Association lists: the embedding of Python dicts (`engines`, `locks`, `agent_cache`) -/

/-- Dict read: `d[k]` / `k in d`, as an association-list lookup. -/
def lookupA {κ α : Type} [DecidableEq κ] : List (κ × α) → κ → Option α
  | [], _ => none
  | (a, b) :: l, k => if k = a then some b else lookupA l k

/-- Remove the first entry with the given key (used to release a per-key lock slot). -/
def eraseA {κ α : Type} [DecidableEq κ] : List (κ × α) → κ → List (κ × α)
  | [], _ => []
  | (a, b) :: l, k => if a = k then l else (a, b) :: eraseA l k

/-! ## The tenacity retry decorator

The source wraps `get_engine`, `groq_llm` and `gpt_llm` with
`@retry(stop=stop_after_attempt(RETRY_ATTEMPTS), wait=RETRY_WAIT, retry=retry_if_exception_type(T))`.
tenacity's loop: run attempt `n` (numbered from 1); on success return the value; on a
raised exception `e`, if the retry predicate rejects `e` the exception is re-raised at
once; otherwise, if `n` has reached the configured `stop_after_attempt` bound the failure
is raised with no further wait; otherwise sleep `wait(n)` and run attempt `n + 1`. -/

/-- Python exception values raised on the retry-wrapped paths of this repository. -/
inductive PyExc where
  | sqlAlchemyError : PyExc
  | networkError : PyExc
  | authenticationError : PyExc
  | malformedInput : PyExc
  | retryableException : PyExc → PyExc
  deriving DecidableEq, Repr

/-- Modelled from the spec: the failure classification of §7 — infrastructure/network-style
errors are transient, caller errors (malformed input, authentication failure) are
permanent. The source itself contains no such classifier. -/
def isTransient : PyExc → Bool
  | .networkError => true
  | .sqlAlchemyError => false
  | .authenticationError => false
  | .malformedInput => false
  | .retryableException e => isTransient e

/-- Outcome of one run of a tenacity-decorated call: terminal result, total number of
attempts made, and the list of backoff sleeps performed (in order). -/
structure RetryRun (ε α : Type) where
  result : Except ε α
  attempts : ℕ
  sleeps : List ℕ

/-- Prepend one backoff sleep to a run's sleep log. -/
def RetryRun.addSleep {ε α : Type} (r : RetryRun ε α) (d : ℕ) : RetryRun ε α :=
  ⟨r.result, r.attempts, d :: r.sleeps⟩

/-- The tenacity retry loop at attempt `n` with `fuel` further attempts allowed after the
current one (so `fuel = maxAttempts - n` throughout a run): `pred` is
`retry_if_exception_type`, `wait` the configured wait strategy, and `op i` the outcome of
the wrapped call's `i`-th attempt. -/
def retryGo {ε α : Type} (pred : ε → Bool) (wait : ℕ → ℕ) (op : ℕ → Except ε α) :
    ℕ → ℕ → RetryRun ε α
  | fuel, n =>
    match op n with
    | .ok a => ⟨.ok a, n, []⟩
    | .error e =>
      if pred e = false then ⟨.error e, n, []⟩
      else
        match fuel with
        | 0 => ⟨.error e, n, []⟩
        | fuel' + 1 => (retryGo pred wait op fuel' (n + 1)).addSleep (wait n)

/-- One run of a `@retry(stop=stop_after_attempt(maxAttempts), ...)`-decorated function:
tenacity starts at attempt 1 and stops once the attempt number reaches `maxAttempts`
(so even `maxAttempts = 0` performs the first attempt, as tenacity does). -/
def tenacityRetry {ε α : Type} (pred : ε → Bool) (wait : ℕ → ℕ) (maxAttempts : ℕ)
    (op : ℕ → Except ε α) : RetryRun ε α :=
  retryGo pred wait op (maxAttempts - 1) 1

/-- tenacity's `wait_exponential(multiplier=m, min=mn, max=mx)` (default `exp_base = 2`),
as instantiated by `RETRY_WAIT` in both connect_db.py and llm_connections.py: the sleep
after failed attempt `n` is `m * 2 ^ (n - 1)` clamped into `[mn, mx]`. -/
def wait_exponential (m mn mx : ℕ) (n : ℕ) : ℕ :=
  max mn (min (m * 2 ^ (n - 1)) mx)

/-- connect_db.py line 28: `retry=retry_if_exception_type(Exception)` — every Python
exception is an instance of `Exception`, so every raised error is classified retryable. -/
def dbRetryPred : PyExc → Bool := fun _ => true

/-- llm_connections.py lines 41 and 69: `retry=retry_if_exception_type(RetryableException)`. -/
def llmRetryPred : PyExc → Bool
  | .retryableException _ => true
  | _ => false

/-- The body of `groq_llm` / `gpt_llm`: the entire body sits in a
`try: ... except Exception as e: ... raise RetryableException(e)`, so every failure of
the underlying call surfaces wrapped as `RetryableException`. -/
def llmWrapBody {α : Type} (op : ℕ → Except PyExc α) : ℕ → Except PyExc α :=
  fun i =>
    match op i with
    | .ok a => .ok a
    | .error e => .error (.retryableException e)

/-- A decorated `get_engine` call sequence (connect_db.py line 28): retry on every
exception, with the configured wait and attempt bound. -/
def get_engine_retry {α : Type} (wait : ℕ → ℕ) (maxAttempts : ℕ)
    (op : ℕ → Except PyExc α) : RetryRun PyExc α :=
  tenacityRetry dbRetryPred wait maxAttempts op

/-- A decorated `groq_llm` / `gpt_llm` call sequence (llm_connections.py): the body wraps
every exception into `RetryableException`, and the decorator retries exactly on
`RetryableException`. -/
def llm_retry {α : Type} (wait : ℕ → ℕ) (maxAttempts : ℕ)
    (op : ℕ → Except PyExc α) : RetryRun PyExc α :=
  tenacityRetry llmRetryPred wait maxAttempts (llmWrapBody op)

/-! ## Single-caller (sequential) view of the cache bodies, for the on-failure contract -/

/-- Un-retried body of `get_engine` (connect_db.py lines 29-49) with the outcome of
`create_engine(connection_str, pool_pre_ping=True)` made explicit: `none` models the
constructor raising. Returns the call outcome together with the post-call `engines`
dict: `engines[db_name] = engine` runs only after `create_engine` has returned. -/
def get_engine_once (engines : List (String × ℕ)) (dbName : String)
    (createEngine : Option ℕ) : Except Unit ℕ × List (String × ℕ) :=
  match lookupA engines dbName with
  | some e => (.ok e, engines)
  | none =>
    match createEngine with
    | none => (.error (), engines)
    | some e => (.ok e, (dbName, e) :: engines)

/-- Body of `get_agent_executor` (sql_agent.py lines 37-77) with the outcomes of
`SQLDatabase.from_uri`, `SQLDatabaseToolkit(..)` and `create_sql_agent(..)` made
explicit (`none` models the step raising). A raised exception propagates — the outer
`except` prints and re-raises — and `agent_cache[project_id] = agent_executor` runs only
after `create_sql_agent` has returned. -/
def get_agent_executor_once (cache : List (String × ℕ)) (projectId : String)
    (fromUri : Option ℕ) (mkToolkit : ℕ → Option ℕ) (createAgent : ℕ → Option ℕ) :
    Except Unit ℕ × List (String × ℕ) :=
  match lookupA cache projectId with
  | some a => (.ok a, cache)
  | none =>
    match fromUri with
    | none => (.error (), cache)
    | some db =>
      match mkToolkit db with
      | none => (.error (), cache)
      | some tk =>
        match createAgent tk with
        | none => (.error (), cache)
        | some ag => (.ok ag, (projectId, ag) :: cache)

/-! ## Sequential model of `get_or_create_database` (connect_db.py lines 51-82) -/

/-- Modelled from the spec: `Config.POSTGRES_DEFAULT_DB` (config.py is not under src/).
The spec (§4.4) calls it a fixed "well-known administrative database"; the source
comment says "Typically 'postgres'". -/
def defaultDb : String := "postgres"

/-- Observable actions of `get_or_create_database` against the backend. -/
inductive DBEvent where
  | createDatabase (name : String)
  | connClose
  | engineDispose (engine : ℕ)
  deriving DecidableEq, Repr

/-- How a sequential call can fail to return normally: `deadlock` models blocking forever
on acquiring a non-reentrant `threading.Lock` the calling thread already holds;
`sqlError` models a raised `SQLAlchemyError`. -/
inductive DBErr where
  | deadlock
  | sqlError
  deriving DecidableEq, Repr

/-- State threaded through the sequential model: the global `engines` dict, the set of
per-key locks held by the (single) calling thread, the server-side catalog of existing
databases (`pg_database`), a supply of fresh engine ids, the ids on which `.dispose()`
was called, and the event log. -/
structure DBState where
  engines : List (String × ℕ)
  held : List String
  catalog : List String
  nextEngine : ℕ
  disposed : List ℕ
  events : List DBEvent
  deriving DecidableEq, Repr

/-- Sequential (single-caller) `get_engine` (connect_db.py lines 29-49): acquire the
per-key lock — blocking forever if this thread already holds it — then return the cached
engine, or construct and cache a fresh one. `create_engine` is lazy (it opens no
connection), so it is modelled as always returning a fresh engine object. -/
def get_engine_seq (dbName : String) (s : DBState) : Except DBErr (ℕ × DBState) :=
  if dbName ∈ s.held then .error .deadlock
  else
    match lookupA s.engines dbName with
    | some e => .ok (e, s)
    | none => .ok (s.nextEngine,
        { s with engines := (dbName, s.nextEngine) :: s.engines,
                 nextEngine := s.nextEngine + 1 })

/-- Sequential `get_or_create_database` (connect_db.py lines 51-82). `adminOk` is the
outcome of the administrative SQL in the `try` block (`SELECT 1 FROM pg_database ...`,
`CREATE DATABASE ...`): `false` models a raised `SQLAlchemyError`. The `finally` block
closes the administrative connection and disposes the administrative engine on every
exit of the `try`; the engine is left in the `engines` dict. A `deadlock` result models
the call never returning (blocked on a lock this thread holds), with the state at the
moment of blocking. -/
def get_or_create_database (projectId : String) (adminOk : Bool) (s : DBState) :
    Except DBErr ℕ × DBState :=
  if projectId ∈ s.held then (.error .deadlock, s)
  else
    let s1 : DBState := { s with held := projectId :: s.held }
    match lookupA s1.engines projectId with
    | some e => (.ok e, { s1 with held := s.held })
    | none =>
      match get_engine_seq defaultDb s1 with
      | .error err => (.error err, s1)
      | .ok (adminEngine, s2) =>
        let tryOut : Except DBErr DBState :=
          if adminOk then
            if projectId ∈ s2.catalog then .ok s2
            else .ok { s2 with catalog := s2.catalog ++ [projectId],
                               events := s2.events ++ [.createDatabase projectId] }
          else .error .sqlError
        let afterTry : DBState :=
          match tryOut with
          | .ok st => st
          | .error _ => s2
        let s4 : DBState := { afterTry with
          events := afterTry.events ++ [.connClose, .engineDispose adminEngine],
          disposed := afterTry.disposed ++ [adminEngine] }
        match tryOut with
        | .error e2 => (.error e2, { s4 with held := s.held })
        | .ok _ =>
          let s5 : DBState := { s4 with held := s.held }
          match get_engine_seq projectId s5 with
          | .error err => (.error err, s5)
          | .ok (e, s6) => (.ok e, s6)

/-! ## Concurrent model of `get_lock` + the get-or-create discipline

The transition system below embeds `get_lock` and the cached-creation body shared —
line for line — by `get_engine` (connect_db.py lines 19-49, state `global_lock`,
`locks`, `engines`) and `get_agent_executor` (sql_agent.py lines 29-77, state
`global_lock`, `cache_locks`, `agent_cache`): each file instantiates this system with
its own registry, cache and factory (the factory — `create_engine` or the
`SQLDatabase`/toolkit/`create_sql_agent` chain — is opaque here). Any number of threads
each run the function once for an arbitrary key. -/

/-- Program counter of one thread running the get-or-create function for its key:
`start`: about to acquire `global_lock` inside `get_lock`;
`inRegistry`: holds `global_lock`, about to check-or-insert `locks[key]` and release;
`wantKey`: has the per-key lock object, about to acquire it (`with get_lock(key)`);
`locked`: holds the per-key lock, about to check `key in <cache>`;
`creating`: cache miss observed under the lock, about to run the factory;
`haveHandle h`: factory returned handle `h`, about to store `<cache>[key] = h` and release;
`done h`: returned `h`. -/
inductive TPc where
  | start
  | inRegistry
  | wantKey
  | locked
  | creating
  | haveHandle (h : ℕ)
  | done (h : ℕ)
  deriving DecidableEq, Repr

/-- One thread: the key it was called with, its program counter, and the lock object
(by id) that its `get_lock` call returned, once it has. -/
structure Thread where
  key : ℕ
  pc : TPc
  gotLock : Option ℕ
  deriving DecidableEq, Repr

/-- Shared state: holder of `global_lock`; the `locks` dict (key ↦ lock object id) with
a fresh-id supply and a log of `Lock()` constructions stored per key; which thread holds
each lock object; the cache dict (key ↦ handle) with a fresh-handle supply and a log of
factory invocations per key; and the threads. -/
structure CState where
  globalHeld : Option ℕ
  locks : List (ℕ × ℕ)
  nextLockId : ℕ
  lockLog : List ℕ
  lockHeld : List (ℕ × ℕ)
  engines : List (ℕ × ℕ)
  nextHandle : ℕ
  factoryLog : List ℕ
  threads : List Thread
  deriving DecidableEq, Repr

/-- Replace a thread's program counter. -/
def Thread.setPc (th : Thread) (p : TPc) : Thread :=
  { th with pc := p }

/-- One small step of thread `t` (`none` when `t` is blocked on a lock or finished):
acquiring `global_lock` blocks while another thread holds it; the check-or-insert into
`locks` happens under `global_lock`, which is released as soon as it completes;
acquiring the per-key lock object blocks while any thread holds that object; the cache
check happens only after the per-key lock is acquired; on a hit the lock is released and
the cached handle returned; on a miss the factory runs and only then is the handle
stored and the lock released. -/
def step (t : ℕ) (s : CState) : Option CState :=
  match s.threads[t]? with
  | none => none
  | some th =>
    match th.pc with
    | .start =>
      match s.globalHeld with
      | some _ => none
      | none => some ({ s with
          globalHeld := some t
          threads := s.threads.set t (th.setPc .inRegistry) })
    | .inRegistry =>
      match lookupA s.locks th.key with
      | some l => some ({ s with
          globalHeld := none
          threads := s.threads.set t ({ th with pc := .wantKey, gotLock := some l }) })
      | none => some ({ s with
          globalHeld := none
          locks := (th.key, s.nextLockId) :: s.locks
          nextLockId := s.nextLockId + 1
          lockLog := s.lockLog ++ [th.key]
          threads := s.threads.set t ({ th with pc := .wantKey, gotLock := some s.nextLockId }) })
    | .wantKey =>
      match th.gotLock with
      | none => none
      | some l =>
        match lookupA s.lockHeld l with
        | some _ => none
        | none => some ({ s with
            lockHeld := (l, t) :: s.lockHeld
            threads := s.threads.set t (th.setPc .locked) })
    | .locked =>
      match th.gotLock with
      | none => none
      | some l =>
        match lookupA s.engines th.key with
        | some h => some ({ s with
            lockHeld := eraseA s.lockHeld l
            threads := s.threads.set t (th.setPc (.done h)) })
        | none => some ({ s with threads := s.threads.set t (th.setPc .creating) })
    | .creating =>
      some ({ s with
          factoryLog := s.factoryLog ++ [th.key]
          nextHandle := s.nextHandle + 1
          threads := s.threads.set t (th.setPc (.haveHandle s.nextHandle)) })
    | .haveHandle h =>
      match th.gotLock with
      | none => none
      | some l => some ({ s with
          engines := (th.key, h) :: s.engines
          lockHeld := eraseA s.lockHeld l
          threads := s.threads.set t (th.setPc (.done h)) })
    | .done _ => none

/-- The interleaving relation: some thread takes a step. -/
def StepRel (s s' : CState) : Prop :=
  ∃ t, step t s = some s'

/-- Reachability by interleaved steps. -/
def Reaches (s s' : CState) : Prop :=
  Relation.ReflTransGen StepRel s s'

/-- The process-start state for a given list of per-thread keys: empty registries and
caches, every thread about to enter `get_lock` for its key. -/
def startCState (keys : List ℕ) : CState :=
  { globalHeld := none, locks := [], nextLockId := 0, lockLog := [],
    lockHeld := [], engines := [], nextHandle := 0, factoryLog := [],
    threads := keys.map (fun k => ⟨k, .start, none⟩) }

/-- The thread is past its `get_lock` call (it obtained a lock object). -/
def TPc.pastRegistry : TPc → Prop
  | .start => False
  | .inRegistry => False
  | _ => True

/-- The thread is inside the per-key critical section (holds its per-key lock). -/
def TPc.inCrit : TPc → Prop
  | .locked => True
  | .creating => True
  | .haveHandle _ => True
  | _ => False

/-- The thread is inside the creation routine (between the cache-miss check and the
store of the created handle). -/
def TPc.inCreate : TPc → Prop
  | .creating => True
  | .haveHandle _ => True
  | _ => False

/-- No thread is currently holding a freshly created handle for key `k` (i.e. between
factory return and store). -/
def NoHave (T : List Thread) (k : ℕ) : Prop :=
  ∀ (t : ℕ) (th : Thread), T[t]? = some th → th.key = k →
    ∀ h, th.pc ≠ TPc.haveHandle h

/-- The accounting of factory runs for one key `k`: either the handle is not cached, no
factory run for `k` has happened and no thread holds a fresh handle for `k`; or the
handle is not yet cached, exactly one factory run has happened and exactly that one
thread is between factory return and store; or the handle is cached and the one factory
run is accounted for by it. -/
def FactoryState (eng : List (ℕ × ℕ)) (flog : List ℕ) (T : List Thread) (k : ℕ) : Prop :=
  (lookupA eng k = none ∧ flog.count k = 0 ∧ NoHave T k) ∨
  (lookupA eng k = none ∧ flog.count k = 1 ∧
    ∃ (t : ℕ) (th : Thread) (h : ℕ),
      T[t]? = some th ∧ th.key = k ∧ th.pc = TPc.haveHandle h) ∨
  (∃ h, lookupA eng k = some h ∧ flog.count k = 1 ∧ NoHave T k)

/-- The inductive invariant of the concurrent system. -/
structure Inv (s : CState) : Prop where
  global_reg : ∀ t, s.globalHeld = some t →
    ∃ th : Thread, s.threads[t]? = some th ∧ th.pc = TPc.inRegistry
  reg_global : ∀ (t : ℕ) (th : Thread), s.threads[t]? = some th →
    th.pc = TPc.inRegistry → s.globalHeld = some t
  locks_nodup : (s.locks.map Prod.fst).Nodup
  lockHeld_nodup : (s.lockHeld.map Prod.fst).Nodup
  lockLog_count : ∀ k, s.lockLog.count k = if (lookupA s.locks k).isSome then 1 else 0
  gotLock_reg : ∀ (t : ℕ) (th : Thread), s.threads[t]? = some th → th.pc.pastRegistry →
    ∃ l, th.gotLock = some l ∧ lookupA s.locks th.key = some l
  crit_holds : ∀ (t : ℕ) (th : Thread), s.threads[t]? = some th → th.pc.inCrit →
    ∃ l, th.gotLock = some l ∧ lookupA s.lockHeld l = some t
  held_crit : ∀ l t, lookupA s.lockHeld l = some t →
    ∃ th : Thread, s.threads[t]? = some th ∧ th.pc.inCrit ∧ th.gotLock = some l
  create_none : ∀ (t : ℕ) (th : Thread), s.threads[t]? = some th → th.pc.inCreate →
    lookupA s.engines th.key = none
  done_cached : ∀ (t : ℕ) (th : Thread) (h : ℕ), s.threads[t]? = some th →
    th.pc = TPc.done h → lookupA s.engines th.key = some h
  factory_state : ∀ k, FactoryState s.engines s.factoryLog s.threads k

/-! ## Theorems: association lists -/

theorem eraseA_sublist {κ α : Type} [DecidableEq κ] (l : List (κ × α)) (k : κ) :
    List.Sublist (eraseA l k) l := by
  induction l with
  | nil => simp [eraseA]
  | cons p l ih =>
    obtain ⟨a, b⟩ := p
    simp only [eraseA]
    split
    · exact List.sublist_cons_self _ _
    · exact List.Sublist.cons₂ _ ih

theorem lookupA_eraseA_ne {κ α : Type} [DecidableEq κ] (l : List (κ × α)) (k k' : κ)
    (h : k' ≠ k) : lookupA (eraseA l k) k' = lookupA l k' := by
  induction l with
  | nil => simp [eraseA]
  | cons p l ih =>
    obtain ⟨a, b⟩ := p
    simp only [eraseA, lookupA]
    by_cases hak : a = k
    · subst hak
      simp [lookupA, if_neg h]
    · simp only [if_neg hak, lookupA]
      by_cases hka : k' = a
      · simp [hka]
      · simp [if_neg hka, ih]

theorem lookupA_none_not_mem {κ α : Type} [DecidableEq κ] (l : List (κ × α)) (k : κ)
    (h : lookupA l k = none) : k ∉ l.map Prod.fst := by
  induction l with
  | nil => simp
  | cons p l ih =>
    obtain ⟨a, b⟩ := p
    simp only [lookupA] at h
    by_cases hka : k = a
    · simp [hka] at h
    · simp only [if_neg hka] at h
      simp [hka, ih h]

theorem lookupA_some_mem {κ α : Type} [DecidableEq κ] (l : List (κ × α)) (k : κ) (v : α)
    (h : lookupA l k = some v) : k ∈ l.map Prod.fst := by
  induction l with
  | nil => simp [lookupA] at h
  | cons p l ih =>
    obtain ⟨a, b⟩ := p
    simp only [lookupA] at h
    by_cases hka : k = a
    · simp [hka]
    · simp only [if_neg hka] at h
      simp [ih h]

theorem lookupA_eraseA_self {κ α : Type} [DecidableEq κ] (l : List (κ × α)) (k : κ)
    (hnd : (l.map Prod.fst).Nodup) : lookupA (eraseA l k) k = none := by
  induction l with
  | nil => simp [eraseA, lookupA]
  | cons p l ih =>
    obtain ⟨a, b⟩ := p
    simp only [List.map_cons, List.nodup_cons] at hnd
    by_cases hak : a = k
    · subst hak
      simp only [eraseA, if_pos rfl]
      cases h : lookupA l a with
      | none => exact h
      | some v => exact absurd (lookupA_some_mem l a v h) hnd.1
    · have hka : ¬ k = a := fun h => hak h.symm
      simp only [eraseA, if_neg hak, lookupA, if_neg hka]
      exact ih hnd.2

theorem nodup_eraseA {κ α : Type} [DecidableEq κ] (l : List (κ × α)) (k : κ)
    (hnd : (l.map Prod.fst).Nodup) : ((eraseA l k).map Prod.fst).Nodup :=
  hnd.sublist ((eraseA_sublist l k).map Prod.fst)

/-! ## Theorems: the retry loop -/

theorem retryGo_attempts_bounds {ε α : Type} (pred : ε → Bool) (wait : ℕ → ℕ)
    (op : ℕ → Except ε α) :
    ∀ fuel n, n ≤ (retryGo pred wait op fuel n).attempts ∧
      (retryGo pred wait op fuel n).attempts ≤ n + fuel := by
  intro fuel
  induction fuel with
  | zero =>
    intro n
    unfold retryGo
    cases h : op n with
    | ok a => simp
    | error e => by_cases hp : pred e = false <;> simp [hp]
  | succ fuel ih =>
    intro n
    unfold retryGo
    cases h : op n with
    | ok a => simp
    | error e =>
      by_cases hp : pred e = false
      · simp [hp]
      · have h2 := ih (n + 1)
        simp [hp, RetryRun.addSleep]
        omega

theorem retryGo_all_fail {ε α : Type} (pred : ε → Bool) (wait : ℕ → ℕ)
    (op : ℕ → Except ε α) :
    ∀ fuel n, (∀ i, n ≤ i → i ≤ n + fuel → ∃ e, op i = .error e ∧ pred e = true) →
      (∃ e, (retryGo pred wait op fuel n).result = .error e) ∧
      (retryGo pred wait op fuel n).attempts = n + fuel := by
  intro fuel
  induction fuel with
  | zero =>
    intro n hfail
    obtain ⟨e, he, hp⟩ := hfail n le_rfl (by omega)
    unfold retryGo
    rw [he]
    simp [hp]
  | succ fuel ih =>
    intro n hfail
    obtain ⟨e, he, hp⟩ := hfail n le_rfl (by omega)
    unfold retryGo
    rw [he]
    have h2 := ih (n + 1) (fun i h1 h2 => hfail i (by omega) (by omega))
    simp [hp, RetryRun.addSleep]
    exact ⟨h2.1, by omega⟩

theorem retryGo_success {ε α : Type} (pred : ε → Bool) (wait : ℕ → ℕ)
    (op : ℕ → Except ε α) (m : ℕ) (a : α) (hsucc : op (m + 1) = .ok a) :
    ∀ fuel n, 1 ≤ n → n ≤ m + 1 → m + 1 ≤ n + fuel →
      (∀ i, n ≤ i → i ≤ m → ∃ e, op i = .error e ∧ pred e = true) →
      (retryGo pred wait op fuel n).result = .ok a ∧
      (retryGo pred wait op fuel n).attempts = m + 1 := by
  intro fuel
  induction fuel with
  | zero =>
    intro n h1 h2 h3 hfail
    obtain rfl : n = m + 1 := by omega
    unfold retryGo
    rw [hsucc]
    simp
  | succ fuel ih =>
    intro n h1 h2 h3 hfail
    by_cases hn : n = m + 1
    · subst hn
      unfold retryGo
      rw [hsucc]
      simp
    · obtain ⟨e, he, hp⟩ := hfail n le_rfl (by omega)
      unfold retryGo
      rw [he]
      have h4 := ih (n + 1) (by omega) (by omega) (by omega)
        (fun i hi1 hi2 => hfail i (by omega) hi2)
      simp [hp, RetryRun.addSleep]
      exact ⟨h4.1, h4.2⟩

theorem retryGo_sleeps {ε α : Type} (pred : ε → Bool) (wait : ℕ → ℕ)
    (op : ℕ → Except ε α) :
    ∀ fuel n, (retryGo pred wait op fuel n).sleeps =
      (List.range' n ((retryGo pred wait op fuel n).attempts - n)).map wait := by
  intro fuel
  induction fuel with
  | zero =>
    intro n
    unfold retryGo
    cases h : op n with
    | ok a => simp
    | error e => by_cases hp : pred e = false <;> simp [hp]
  | succ fuel ih =>
    intro n
    unfold retryGo
    cases h : op n with
    | ok a => simp
    | error e =>
      by_cases hp : pred e = false
      · simp [hp]
      · have hge := (retryGo_attempts_bounds pred wait op fuel (n + 1)).1
        have hs := ih (n + 1)
        simp [hp, RetryRun.addSleep]
        rw [hs]
        have hsplit : (retryGo pred wait op fuel (n + 1)).attempts - n =
            ((retryGo pred wait op fuel (n + 1)).attempts - (n + 1)) + 1 := by omega
        rw [hsplit, List.range'_succ, List.map_cons]

/-! ## Theorems: retry claims (C5, C6, C7) -/

/-- C6: for a retried operation that fails transiently `m` times and then succeeds,
`stop_after_attempt n` with `n ≥ m + 1` returns the success value after exactly `m + 1`
attempts and exactly `m` backoff sleeps; with `1 ≤ n ≤ m` it fails after exactly `n`
attempts with `n - 1` sleeps — no backoff sleep follows the final attempt. -/
theorem retry_attempt_bound {ε α : Type} (pred : ε → Bool) (wait : ℕ → ℕ)
    (op : ℕ → Except ε α) (m n : ℕ) (a : α) (hn : 1 ≤ n)
    (hfail : ∀ i, 1 ≤ i → i ≤ m → ∃ e, op i = .error e ∧ pred e = true)
    (hsucc : op (m + 1) = .ok a) :
    (m + 1 ≤ n →
      (tenacityRetry pred wait n op).result = .ok a ∧
      (tenacityRetry pred wait n op).attempts = m + 1 ∧
      (tenacityRetry pred wait n op).sleeps.length = m) ∧
    (n ≤ m →
      (∃ e, (tenacityRetry pred wait n op).result = .error e) ∧
      (tenacityRetry pred wait n op).attempts = n ∧
      (tenacityRetry pred wait n op).sleeps.length = n - 1) := by
  unfold tenacityRetry
  constructor
  · intro hmn
    have h := retryGo_success pred wait op m a hsucc (n - 1) 1 le_rfl (by omega) (by omega)
      (fun i h1 h2 => hfail i h1 h2)
    refine ⟨h.1, h.2, ?_⟩
    rw [retryGo_sleeps, h.2]
    simp
  · intro hnm
    have h := retryGo_all_fail pred wait op (n - 1) 1
      (fun i h1 h2 => hfail i h1 (by omega))
    rw [show 1 + (n - 1) = n from by omega] at h
    refine ⟨h.1, h.2, ?_⟩
    rw [retryGo_sleeps, h.2]
    simp

/-- Witness for `retry_attempt_bound`: an operation failing retryably on attempts 1 and 2
and succeeding on attempt 3, allowed 5 attempts, succeeds at attempt 3 with 2 sleeps. -/
theorem retry_attempt_bound_witness :
    (tenacityRetry (fun _ => true) (fun _ => 0) 5
      (fun i => if i ≤ 2 then Except.error PyExc.networkError else Except.ok 7)).result
        = Except.ok 7 ∧
    (tenacityRetry (fun _ => true) (fun _ => 0) 5
      (fun i => if i ≤ 2 then Except.error PyExc.networkError else Except.ok 7)).attempts
        = 3 ∧
    (tenacityRetry (fun _ => true) (fun _ => 0) 5
      (fun i => if i ≤ 2 then Except.error PyExc.networkError else Except.ok 7)).sleeps.length
        = 2 := by
  have h := (retry_attempt_bound (fun _ => true) (fun _ => 0)
    (fun i => if i ≤ 2 then Except.error PyExc.networkError else Except.ok 7) 2 5 7
    (by norm_num) (fun i h1 h2 => ⟨PyExc.networkError, by simp [h2], rfl⟩)
    (by norm_num)).1 (by norm_num)
  exact ⟨h.1, h.2.1, h.2.2⟩

/-- C5 counterexample: an authentication failure — permanent under the spec's
classification (`isTransient = false`) — is nonetheless retried with backoff by both
wrappers: with 3 configured attempts, both the engine path (which retries on the root
`Exception` type) and the LLM path (whose body re-raises everything as
`RetryableException`) make 3 attempts and sleep twice, instead of propagating the
failure immediately with no further attempt or delay. -/
theorem retry_classification_counterexample :
    isTransient PyExc.authenticationError = false ∧
    (get_engine_retry (fun _ => 1) 3
      (fun _ => (Except.error PyExc.authenticationError : Except PyExc Unit))).attempts = 3 ∧
    (get_engine_retry (fun _ => 1) 3
      (fun _ => (Except.error PyExc.authenticationError : Except PyExc Unit))).sleeps = [1, 1] ∧
    (llm_retry (fun _ => 1) 3
      (fun _ => (Except.error PyExc.authenticationError : Except PyExc Unit))).attempts = 3 ∧
    (llm_retry (fun _ => 1) 3
      (fun _ => (Except.error PyExc.authenticationError : Except PyExc Unit))).sleeps = [1, 1] :=
  ⟨rfl, rfl, rfl, rfl, rfl⟩

/-- C5 amended: the wrappers do not distinguish transient from permanent failures —
`retry_if_exception_type(Exception)` accepts every raised error on the engine path, and
the LLM wrappers re-raise every failure as `RetryableException`, which their predicate
accepts — so an operation that keeps failing, with permanent errors included, is
attempted the full configured `n` times by both wrappers. -/
theorem retry_retries_every_exception {α : Type} (wait : ℕ → ℕ) (n : ℕ)
    (op : ℕ → Except PyExc α) (hn : 1 ≤ n)
    (hfail : ∀ i, ∃ e, op i = .error e) :
    (∀ e, dbRetryPred e = true) ∧
    (∀ e, llmRetryPred (PyExc.retryableException e) = true) ∧
    (get_engine_retry wait n op).attempts = n ∧
    (llm_retry wait n op).attempts = n := by
  refine ⟨fun _ => rfl, fun _ => rfl, ?_, ?_⟩
  · unfold get_engine_retry tenacityRetry
    have h := retryGo_all_fail dbRetryPred wait op (n - 1) 1
      (fun i h1 h2 => by
        obtain ⟨e, he⟩ := hfail i
        exact ⟨e, he, rfl⟩)
    rw [show 1 + (n - 1) = n from by omega] at h
    exact h.2
  · unfold llm_retry tenacityRetry
    have h := retryGo_all_fail llmRetryPred wait (llmWrapBody op) (n - 1) 1
      (fun i h1 h2 => by
        obtain ⟨e, he⟩ := hfail i
        exact ⟨.retryableException e, by simp [llmWrapBody, he], rfl⟩)
    rw [show 1 + (n - 1) = n from by omega] at h
    exact h.2

/-- Witness for `retry_retries_every_exception`: a permanently failing operation
(malformed input) is attempted 3 times by both wrappers. -/
theorem retry_retries_every_exception_witness :
    (∀ e, dbRetryPred e = true) ∧
    (∀ e, llmRetryPred (PyExc.retryableException e) = true) ∧
    (get_engine_retry (fun _ => 0) 3
      (fun _ => (Except.error PyExc.malformedInput : Except PyExc Unit))).attempts = 3 ∧
    (llm_retry (fun _ => 0) 3
      (fun _ => (Except.error PyExc.malformedInput : Except PyExc Unit))).attempts = 3 :=
  retry_retries_every_exception (fun _ => 0) 3 _ (by norm_num)
    (fun i => ⟨PyExc.malformedInput, rfl⟩)

theorem wait_exponential_mono (m mn mx : ℕ) {i j : ℕ} (hij : i ≤ j) :
    wait_exponential m mn mx i ≤ wait_exponential m mn mx j := by
  unfold wait_exponential
  have h2 : m * 2 ^ (i - 1) ≤ m * 2 ^ (j - 1) :=
    Nat.mul_le_mul le_rfl (Nat.pow_le_pow_right (by norm_num) (by omega))
  exact max_le_max le_rfl (min_le_min h2 le_rfl)

theorem wait_exponential_le (m mn mx : ℕ) (h : mn ≤ mx) (n : ℕ) :
    wait_exponential m mn mx n ≤ mx :=
  max_le h (min_le_right _ _)

theorem chain_le_map_range' (w : ℕ → ℕ) (hw : ∀ i j, i ≤ j → w i ≤ w j) :
    ∀ (k s : ℕ), List.Chain' (fun a b => a ≤ b) ((List.range' s k).map w) := by
  intro k
  induction k with
  | zero =>
    intro s
    simp
  | succ k ih =>
    intro s
    cases k with
    | zero => simp
    | succ k' =>
      rw [List.range'_succ, List.map_cons, List.range'_succ, List.map_cons]
      refine List.Chain'.cons (hw s (s + 1) (by omega)) ?_
      rw [← List.map_cons, ← List.range'_succ]
      exact ih (s + 1)

/-- C7 counterexample: with `wait_exponential(multiplier=1, min=4, max=10)` the sleeps
after failed attempts 1, 2 and 4 are 4, 4 and 8; no choice of seed and multiplier makes
them all equal `min(cap, seed * multiplier^(n-1))` with `cap = 10` — the configured
`min` floor (and the base-2 exponent) is missing from the claimed formula. -/
theorem backoff_formula_counterexample :
    wait_exponential 1 4 10 1 = 4 ∧ wait_exponential 1 4 10 2 = 4 ∧
    wait_exponential 1 4 10 4 = 8 ∧
    ¬ ∃ seed mult : ℕ, ∀ n, 1 ≤ n → n ≤ 4 →
      wait_exponential 1 4 10 n = min 10 (seed * mult ^ (n - 1)) := by
  refine ⟨rfl, rfl, rfl, ?_⟩
  rintro ⟨s, t, h⟩
  have h1 := h 1 (by norm_num) (by norm_num)
  have h2 := h 2 (by norm_num) (by norm_num)
  have h4 := h 4 (by norm_num) (by norm_num)
  norm_num [wait_exponential] at h1 h2 h4
  obtain rfl : s = 4 := by omega
  obtain rfl : t = 1 := by omega
  norm_num at h4

/-- C7 amended: the delay slept before attempt `n + 1` is tenacity's
`wait_exponential` value `max(min, m * 2^(n-1) capped at max)` — the run's sleep list is
exactly that function mapped over the attempt numbers 1, 2, ... — and, provided the
configured minimum does not exceed the maximum, successive delays are non-decreasing and
never exceed the configured maximum. -/
theorem backoff_schedule {ε α : Type} (pred : ε → Bool) (op : ℕ → Except ε α)
    (m mn mx maxA : ℕ) (hmm : mn ≤ mx) :
    (tenacityRetry pred (wait_exponential m mn mx) maxA op).sleeps =
      (List.range' 1 ((tenacityRetry pred (wait_exponential m mn mx) maxA op).attempts - 1)).map
        (wait_exponential m mn mx) ∧
    List.Chain' (fun a b => a ≤ b)
      (tenacityRetry pred (wait_exponential m mn mx) maxA op).sleeps ∧
    ∀ d ∈ (tenacityRetry pred (wait_exponential m mn mx) maxA op).sleeps, d ≤ mx := by
  have hs := retryGo_sleeps pred (wait_exponential m mn mx) op (maxA - 1) 1
  refine ⟨hs, ?_, ?_⟩
  · unfold tenacityRetry
    rw [hs]
    exact chain_le_map_range' _ (fun i j hij => wait_exponential_mono m mn mx hij) _ _
  · intro d hd
    unfold tenacityRetry at hd
    rw [hs] at hd
    obtain ⟨i, hi, rfl⟩ := List.mem_map.mp hd
    exact wait_exponential_le m mn mx hmm i

/-- Witness for `backoff_schedule`: a concrete always-failing run with
`wait_exponential(1, 4, 10)` and 5 attempts. -/
theorem backoff_schedule_witness :
    (tenacityRetry (fun _ => true) (wait_exponential 1 4 10) 5
      (fun _ => (Except.error PyExc.networkError : Except PyExc Unit))).sleeps =
      (List.range' 1 ((tenacityRetry (fun _ => true) (wait_exponential 1 4 10) 5
        (fun _ => (Except.error PyExc.networkError : Except PyExc Unit))).attempts - 1)).map
        (wait_exponential 1 4 10) ∧
    List.Chain' (fun a b => a ≤ b)
      (tenacityRetry (fun _ => true) (wait_exponential 1 4 10) 5
        (fun _ => (Except.error PyExc.networkError : Except PyExc Unit))).sleeps ∧
    ∀ d ∈ (tenacityRetry (fun _ => true) (wait_exponential 1 4 10) 5
      (fun _ => (Except.error PyExc.networkError : Except PyExc Unit))).sleeps, d ≤ 10 :=
  backoff_schedule (fun _ => true)
    (fun _ => (Except.error PyExc.networkError : Except PyExc Unit)) 1 4 10 5 (by norm_num)

/-! ## Theorems: the cache on factory failure (C2) -/

/-- C2: if the factory step fails, no cache entry for the key is stored — the dict is
returned unchanged with the key still absent — and a subsequent call for the key runs
the factory again from scratch (here: a then-succeeding factory is invoked and its
result stored); this holds for `get_engine` (factory `create_engine`) and for
`get_agent_executor` (factory chain `SQLDatabase.from_uri` / toolkit /
`create_sql_agent`, whichever step raises). -/
theorem no_cache_poisoning_on_failure (engines cache : List (String × ℕ)) (k : String)
    (henk : lookupA engines k = none) (hck : lookupA cache k = none) :
    get_engine_once engines k none = (.error (), engines) ∧
    (∀ e, get_engine_once engines k (some e) = (.ok e, (k, e) :: engines)) ∧
    (∀ mt ca, get_agent_executor_once cache k none mt ca = (.error (), cache)) ∧
    (∀ db mt ca, mt db = none →
      get_agent_executor_once cache k (some db) mt ca = (.error (), cache)) ∧
    (∀ db tk mt ca, mt db = some tk → ca tk = none →
      get_agent_executor_once cache k (some db) mt ca = (.error (), cache)) ∧
    (∀ db tk ag mt ca, mt db = some tk → ca tk = some ag →
      get_agent_executor_once cache k (some db) mt ca = (.ok ag, (k, ag) :: cache)) := by
  refine ⟨?_, ?_, ?_, ?_, ?_, ?_⟩
  · simp [get_engine_once, henk]
  · intro e
    simp [get_engine_once, henk]
  · intro mt ca
    simp [get_agent_executor_once, hck]
  · intro db mt ca hmt
    simp [get_agent_executor_once, hck, hmt]
  · intro db tk mt ca hmt hca
    simp [get_agent_executor_once, hck, hmt, hca]
  · intro db tk ag mt ca hmt hca
    simp [get_agent_executor_once, hck, hmt, hca]

/-- Witness for `no_cache_poisoning_on_failure` at concrete dicts and key. -/
theorem no_cache_poisoning_on_failure_witness :
    get_engine_once [("acme", 5)] "globex" none = (.error (), [("acme", 5)]) ∧
    (∀ e, get_engine_once [("acme", 5)] "globex" (some e) =
      (.ok e, ("globex", e) :: [("acme", 5)])) ∧
    (∀ mt ca, get_agent_executor_once [("acme", 5)] "globex" none mt ca =
      (.error (), [("acme", 5)])) ∧
    (∀ db mt ca, mt db = none →
      get_agent_executor_once [("acme", 5)] "globex" (some db) mt ca =
        (.error (), [("acme", 5)])) ∧
    (∀ db tk mt ca, mt db = some tk → ca tk = none →
      get_agent_executor_once [("acme", 5)] "globex" (some db) mt ca =
        (.error (), [("acme", 5)])) ∧
    (∀ db tk ag mt ca, mt db = some tk → ca tk = some ag →
      get_agent_executor_once [("acme", 5)] "globex" (some db) mt ca =
        (.ok ag, ("globex", ag) :: [("acme", 5)])) :=
  no_cache_poisoning_on_failure [("acme", 5)] [("acme", 5)] "globex" (by decide) (by decide)

/-! ## Theorems: sequential provisioning (C3, C4, C9, C10) -/

/-- C3 counterexample: for a project whose id equals the administrative default-database
key (`postgres`), uncached and with its database absent from the catalog, the first call
creates nothing: while holding the project's per-key lock it calls `get_engine` on the
same key and blocks forever re-acquiring that non-reentrant lock (the `deadlock`
outcome), so no `CREATE DATABASE` is issued and no engine is returned — the claim's
"creates the database exactly once on the first call" fails. -/
theorem provisioning_idempotent_counterexample :
    (get_or_create_database defaultDb true ⟨[], [], [], 0, [], []⟩).1 =
      .error .deadlock ∧
    (get_or_create_database defaultDb true ⟨[], [], [], 0, [], []⟩).2.events.count
      (DBEvent.createDatabase defaultDb) = 0 := by
  constructor
  · rfl
  · rfl

/-- C10: with no lock held at entry, `get_or_create_database` never reaches the deadlock
outcome for a project key distinct from the administrative default-database key (all
external calls assumed to return, the call terminates, normally or with
`SQLAlchemyError`); for the default-database key itself with no cached engine, it
deadlocks: holding that key's non-reentrant per-key lock it calls `get_engine` on the
same key, which blocks acquiring the same lock again — the call never terminates. -/
theorem provisioning_termination (s : DBState) (pid : String) (adminOk : Bool)
    (hheld : s.held = []) :
    (pid ≠ defaultDb → (get_or_create_database pid adminOk s).1 ≠ .error .deadlock) ∧
    (pid = defaultDb → lookupA s.engines pid = none →
      (get_or_create_database pid adminOk s).1 = .error .deadlock) := by
  constructor
  · intro hpid
    cases hpc : lookupA s.engines pid with
    | some e => simp [get_or_create_database, hheld, hpc]
    | none =>
      cases hdef : lookupA s.engines defaultDb with
      | some aE =>
        cases adminOk with
        | false =>
          simp [get_or_create_database, get_engine_seq, lookupA, hheld, hpc, hdef,
            hpid, Ne.symm hpid]
        | true =>
          by_cases hcat : pid ∈ s.catalog <;>
            simp [get_or_create_database, get_engine_seq, lookupA, hheld, hpc, hdef,
              hpid, Ne.symm hpid, hcat]
      | none =>
        cases adminOk with
        | false =>
          simp [get_or_create_database, get_engine_seq, lookupA, hheld, hpc, hdef,
            hpid, Ne.symm hpid]
        | true =>
          by_cases hcat : pid ∈ s.catalog <;>
            simp [get_or_create_database, get_engine_seq, lookupA, hheld, hpc, hdef,
              hpid, Ne.symm hpid, hcat]
  · intro hpid hpc
    subst hpid
    simp [get_or_create_database, get_engine_seq, hheld, hpc]

/-- Witness for `provisioning_termination` at a concrete state and key. -/
theorem provisioning_termination_witness :
    (("acme" : String) ≠ defaultDb →
      (get_or_create_database "acme" true ⟨[], [], [], 0, [], []⟩).1 ≠
        .error .deadlock) ∧
    (("acme" : String) = defaultDb →
      lookupA (DBState.engines ⟨[], [], [], 0, [], []⟩) "acme" = none →
      (get_or_create_database "acme" true ⟨[], [], [], 0, [], []⟩).1 =
        .error .deadlock) :=
  provisioning_termination ⟨[], [], [], 0, [], []⟩ "acme" true rfl

/-- C4: whenever the administrative step runs (slow path, project key distinct from the
administrative key), there is a single administrative engine such that on every exit of
the `try` — database created, database already exists (both `adminOk = true`, split on
the catalog), or `SQLAlchemyError` raised (`adminOk = false`) — the connection-close and
engine-dispose of the `finally` have happened in the returned state, and in the error
case the call returns the re-raised `SQLAlchemyError` rather than swallowing it. -/
theorem admin_connection_released (s : DBState) (pid : String)
    (hpid : pid ≠ defaultDb) (hheld : s.held = [])
    (hcache : lookupA s.engines pid = none) :
    ∃ aE,
      (∀ adminOk,
        DBEvent.connClose ∈ (get_or_create_database pid adminOk s).2.events ∧
        DBEvent.engineDispose aE ∈ (get_or_create_database pid adminOk s).2.events ∧
        aE ∈ (get_or_create_database pid adminOk s).2.disposed) ∧
      (get_or_create_database pid false s).1 = .error .sqlError := by
  cases hdef : lookupA s.engines defaultDb with
  | some aE =>
    refine ⟨aE, fun adminOk => ?_, ?_⟩
    · cases adminOk with
      | false =>
        simp [get_or_create_database, get_engine_seq, lookupA, hheld, hcache, hdef,
          hpid, Ne.symm hpid]
      | true =>
        by_cases hcat : pid ∈ s.catalog <;>
          simp [get_or_create_database, get_engine_seq, lookupA, hheld, hcache, hdef,
            hpid, Ne.symm hpid, hcat]
    · simp [get_or_create_database, get_engine_seq, lookupA, hheld, hcache, hdef,
        hpid, Ne.symm hpid]
  | none =>
    refine ⟨s.nextEngine, fun adminOk => ?_, ?_⟩
    · cases adminOk with
      | false =>
        simp [get_or_create_database, get_engine_seq, lookupA, hheld, hcache, hdef,
          hpid, Ne.symm hpid]
      | true =>
        by_cases hcat : pid ∈ s.catalog <;>
          simp [get_or_create_database, get_engine_seq, lookupA, hheld, hcache, hdef,
            hpid, Ne.symm hpid, hcat]
    · simp [get_or_create_database, get_engine_seq, lookupA, hheld, hcache, hdef,
        hpid, Ne.symm hpid]

/-- Witness for `admin_connection_released` at a concrete state and key. -/
theorem admin_connection_released_witness :
    ∃ aE,
      (∀ adminOk,
        DBEvent.connClose ∈
          (get_or_create_database "acme" adminOk ⟨[], [], [], 0, [], []⟩).2.events ∧
        DBEvent.engineDispose aE ∈
          (get_or_create_database "acme" adminOk ⟨[], [], [], 0, [], []⟩).2.events ∧
        aE ∈ (get_or_create_database "acme" adminOk ⟨[], [], [], 0, [], []⟩).2.disposed) ∧
      (get_or_create_database "acme" false ⟨[], [], [], 0, [], []⟩).1 =
        .error .sqlError :=
  admin_connection_released ⟨[], [], [], 0, [], []⟩ "acme" (by decide) rfl rfl

/-- C9: on the slow path (no cached engine for the project, project key distinct from
the administrative key), `get_or_create_database` disposes the administrative engine but
leaves it stored in the `engines` dict under the default-database key — the entry is
neither removed nor replaced (if an engine was cached there beforehand it is that very
object) — so a subsequent `get_engine` for the default key returns exactly that disposed
engine object with the state unchanged. -/
theorem default_engine_disposed_but_cached (s : DBState) (pid : String) (adminOk : Bool)
    (hpid : pid ≠ defaultDb) (hheld : s.held = [])
    (hcache : lookupA s.engines pid = none) :
    ∃ aE,
      lookupA (get_or_create_database pid adminOk s).2.engines defaultDb = some aE ∧
      aE ∈ (get_or_create_database pid adminOk s).2.disposed ∧
      (∀ e0, lookupA s.engines defaultDb = some e0 → aE = e0) ∧
      get_engine_seq defaultDb (get_or_create_database pid adminOk s).2 =
        .ok (aE, (get_or_create_database pid adminOk s).2) := by
  cases hdef : lookupA s.engines defaultDb with
  | some aE =>
    refine ⟨aE, ?_, ?_, ?_, ?_⟩ <;>
    · cases adminOk with
      | false =>
        simp [get_or_create_database, get_engine_seq, lookupA, hheld, hcache, hdef,
          hpid, Ne.symm hpid]
      | true =>
        by_cases hcat : pid ∈ s.catalog <;>
          simp [get_or_create_database, get_engine_seq, lookupA, hheld, hcache, hdef,
            hpid, Ne.symm hpid, hcat]
  | none =>
    refine ⟨s.nextEngine, ?_, ?_, ?_, ?_⟩ <;>
    · cases adminOk with
      | false =>
        simp [get_or_create_database, get_engine_seq, lookupA, hheld, hcache, hdef,
          hpid, Ne.symm hpid]
      | true =>
        by_cases hcat : pid ∈ s.catalog <;>
          simp [get_or_create_database, get_engine_seq, lookupA, hheld, hcache, hdef,
            hpid, Ne.symm hpid, hcat]

/-- Witness for `default_engine_disposed_but_cached` at a concrete state and key. -/
theorem default_engine_disposed_but_cached_witness :
    ∃ aE,
      lookupA (get_or_create_database "acme" true ⟨[], [], [], 0, [], []⟩).2.engines
        defaultDb = some aE ∧
      aE ∈ (get_or_create_database "acme" true ⟨[], [], [], 0, [], []⟩).2.disposed ∧
      (∀ e0, lookupA (DBState.engines ⟨[], [], [], 0, [], []⟩) defaultDb = some e0 →
        aE = e0) ∧
      get_engine_seq defaultDb (get_or_create_database "acme" true ⟨[], [], [], 0, [], []⟩).2 =
        .ok (aE, (get_or_create_database "acme" true ⟨[], [], [], 0, [], []⟩).2) :=
  default_engine_disposed_but_cached ⟨[], [], [], 0, [], []⟩ "acme" true (by decide) rfl rfl

/-- C3 amended (restricted to projects distinct from the administrative default-database
key, where the original claim fails by self-deadlock — see the counterexample):
calling `get_or_create_database` twice in sequence for an uncached project whose
database does not yet exist issues `CREATE DATABASE` exactly once, on the first call;
the second call returns the same result through the fast path with the state — hence
the event log — unchanged, so no second `CREATE DATABASE` and no duplicate-database
error; and on any state whose catalog already lists the project, the existence check
prevents any `CREATE DATABASE` for it. -/
theorem provisioning_idempotent (s : DBState) (pid : String)
    (hpid : pid ≠ defaultDb) (hheld : s.held = [])
    (hcache : lookupA s.engines pid = none) (hcat : pid ∉ s.catalog) :
    (∃ e, (get_or_create_database pid true s).1 = .ok e) ∧
    (get_or_create_database pid true s).2.events.count (DBEvent.createDatabase pid) =
      s.events.count (DBEvent.createDatabase pid) + 1 ∧
    get_or_create_database pid true (get_or_create_database pid true s).2 =
      ((get_or_create_database pid true s).1, (get_or_create_database pid true s).2) ∧
    (∀ t : DBState, t.held = [] → pid ∈ t.catalog →
      (get_or_create_database pid true t).2.events.count (DBEvent.createDatabase pid) =
        t.events.count (DBEvent.createDatabase pid)) := by
  have hguard : ∀ t : DBState, t.held = [] → pid ∈ t.catalog →
      (get_or_create_database pid true t).2.events.count (DBEvent.createDatabase pid) =
        t.events.count (DBEvent.createDatabase pid) := by
    intro t ht htc
    cases htc2 : lookupA t.engines pid with
    | some e => simp [get_or_create_database, ht, htc2]
    | none =>
      cases hdef : lookupA t.engines defaultDb with
      | some aE =>
        simp [get_or_create_database, get_engine_seq, lookupA, ht, htc2, hdef,
          hpid, Ne.symm hpid, htc, List.count_append, List.count_cons]
      | none =>
        simp [get_or_create_database, get_engine_seq, lookupA, ht, htc2, hdef,
          hpid, Ne.symm hpid, htc, List.count_append, List.count_cons]
  refine ⟨?_, ?_, ?_, hguard⟩
  · cases hdef : lookupA s.engines defaultDb with
    | some aE =>
      exact ⟨s.nextEngine, by
        simp [get_or_create_database, get_engine_seq, lookupA, hheld, hcache, hdef,
          hpid, Ne.symm hpid, hcat]⟩
    | none =>
      exact ⟨s.nextEngine + 1, by
        simp [get_or_create_database, get_engine_seq, lookupA, hheld, hcache, hdef,
          hpid, Ne.symm hpid, hcat]⟩
  · cases hdef : lookupA s.engines defaultDb with
    | some aE =>
      simp [get_or_create_database, get_engine_seq, lookupA, hheld, hcache, hdef,
        hpid, Ne.symm hpid, hcat, List.count_append, List.count_cons]
    | none =>
      simp [get_or_create_database, get_engine_seq, lookupA, hheld, hcache, hdef,
        hpid, Ne.symm hpid, hcat, List.count_append, List.count_cons]
  · cases hdef : lookupA s.engines defaultDb with
    | some aE =>
      simp [get_or_create_database, get_engine_seq, lookupA, hheld, hcache, hdef,
        hpid, Ne.symm hpid, hcat]
    | none =>
      simp [get_or_create_database, get_engine_seq, lookupA, hheld, hcache, hdef,
        hpid, Ne.symm hpid, hcat]

/-- Witness for `provisioning_idempotent` at a concrete state and key. -/
theorem provisioning_idempotent_witness :
    (∃ e, (get_or_create_database "acme" true ⟨[], [], [], 0, [], []⟩).1 = .ok e) ∧
    (get_or_create_database "acme" true ⟨[], [], [], 0, [], []⟩).2.events.count
      (DBEvent.createDatabase "acme") =
      (DBState.events ⟨[], [], [], 0, [], []⟩).count (DBEvent.createDatabase "acme") + 1 ∧
    get_or_create_database "acme" true
      (get_or_create_database "acme" true ⟨[], [], [], 0, [], []⟩).2 =
      ((get_or_create_database "acme" true ⟨[], [], [], 0, [], []⟩).1,
        (get_or_create_database "acme" true ⟨[], [], [], 0, [], []⟩).2) ∧
    (∀ t : DBState, t.held = [] → "acme" ∈ t.catalog →
      (get_or_create_database "acme" true t).2.events.count
        (DBEvent.createDatabase "acme") =
        t.events.count (DBEvent.createDatabase "acme")) :=
  provisioning_idempotent ⟨[], [], [], 0, [], []⟩ "acme" (by decide) rfl rfl
    (by simp)

/-! ## Theorems: the concurrent get-or-create system (C1, C8) -/

theorem lt_length_of_getElem? {α : Type} {l : List α} {i : ℕ} {a : α}
    (h : l[i]? = some a) : i < l.length := by
  by_contra hc
  rw [List.getElem?_eq_none (by omega)] at h
  exact Option.noConfusion h

theorem lookupA_cons_self {κ α : Type} [DecidableEq κ] (a : κ) (b : α)
    (l : List (κ × α)) : lookupA ((a, b) :: l) a = some b := by
  simp [lookupA]

theorem lookupA_cons_ne {κ α : Type} [DecidableEq κ] (a : κ) (b : α) (l : List (κ × α))
    (k : κ) (h : k ≠ a) : lookupA ((a, b) :: l) k = lookupA l k := by
  simp [lookupA, h]

theorem set_getElem?_self {T : List Thread} {t : ℕ} {th : Thread} (new : Thread)
    (hth : T[t]? = some th) : (T.set t new)[t]? = some new :=
  List.getElem?_set_self (lt_length_of_getElem? hth)

theorem set_getElem?_cases {T : List Thread} {t : ℕ} {th new : Thread}
    (hth : T[t]? = some th) {u : ℕ} {thu : Thread}
    (hu : (T.set t new)[u]? = some thu) :
    (u = t ∧ thu = new) ∨ (u ≠ t ∧ T[u]? = some thu) := by
  by_cases h : u = t
  · subst h
    rw [set_getElem?_self new hth] at hu
    exact Or.inl ⟨rfl, (Option.some.inj hu).symm⟩
  · refine Or.inr ⟨h, ?_⟩
    rwa [List.getElem?_set_ne (fun he => h he.symm)] at hu

theorem TPc.inCrit_pastRegistry {p : TPc} (h : p.inCrit) : p.pastRegistry := by
  cases p <;> simp_all [TPc.inCrit, TPc.pastRegistry]

theorem TPc.inCreate_inCrit {p : TPc} (h : p.inCreate) : p.inCrit := by
  cases p <;> simp_all [TPc.inCreate, TPc.inCrit]

/-- Mutual exclusion, derived from the invariant: two threads inside the per-key
critical section for the same key are the same thread. -/
theorem Inv.mutex {s : CState} (hinv : Inv s) {t t' : ℕ} {th th' : Thread}
    (h1 : s.threads[t]? = some th) (h2 : s.threads[t']? = some th')
    (hc1 : th.pc.inCrit) (hc2 : th'.pc.inCrit) (hk : th.key = th'.key) : t = t' := by
  obtain ⟨l1, hg1, hr1⟩ := hinv.gotLock_reg t th h1 (TPc.inCrit_pastRegistry hc1)
  obtain ⟨l2, hg2, hr2⟩ := hinv.gotLock_reg t' th' h2 (TPc.inCrit_pastRegistry hc2)
  rw [hk] at hr1
  have hll : l1 = l2 := Option.some.inj (hr1.symm.trans hr2)
  obtain ⟨l1', hg1', hh1⟩ := hinv.crit_holds t th h1 hc1
  obtain ⟨l2', hg2', hh2⟩ := hinv.crit_holds t' th' h2 hc2
  have h1l : l1' = l1 := Option.some.inj (hg1'.symm.trans hg1)
  have h2l : l2' = l2 := Option.some.inj (hg2'.symm.trans hg2)
  rw [h1l, hll] at hh1
  rw [h2l] at hh2
  exact Option.some.inj (hh1.symm.trans hh2)

/-- `FactoryState` is stable under replacing a thread when neither its old nor its new
program counter is `haveHandle` and the cache and factory log are untouched. -/
theorem factoryState_set_no_have {eng : List (ℕ × ℕ)} {flog : List ℕ} {T : List Thread}
    {t : ℕ} {th new : Thread} (hth : T[t]? = some th)
    (hold : ∀ h, th.pc ≠ TPc.haveHandle h) (hnew : ∀ h, new.pc ≠ TPc.haveHandle h)
    (k : ℕ) (hfs : FactoryState eng flog T k) :
    FactoryState eng flog (T.set t new) k := by
  have hnh : ∀ k', NoHave T k' → NoHave (T.set t new) k' := by
    intro k' hn u thu hu hk h
    rcases set_getElem?_cases hth hu with ⟨rfl, rfl⟩ | ⟨hne, hu'⟩
    · exact hnew h
    · exact hn u thu hu' hk h
  rcases hfs with ⟨h1, h2, h3⟩ | ⟨h1, h2, u, thu, hh, hu, hk2, hpcu⟩ | ⟨hh, h1, h2, h3⟩
  · exact Or.inl ⟨h1, h2, hnh k h3⟩
  · have hut : u ≠ t := by
      rintro rfl
      obtain rfl := Option.some.inj (hu.symm.trans hth)
      exact hold hh hpcu
    exact Or.inr (Or.inl ⟨h1, h2, u, thu, hh,
      by rwa [List.getElem?_set_ne (fun he => hut he.symm)], hk2, hpcu⟩)
  · exact Or.inr (Or.inr ⟨hh, h1, h2, hnh k h3⟩)

/-- `FactoryState` at key `k` is stable under replacing a thread whose key is not `k`
(whatever its program counters), provided the cache lookup and factory count at `k` are
unchanged. -/
theorem factoryState_set_other_key {eng eng' : List (ℕ × ℕ)} {flog flog' : List ℕ}
    {T : List Thread} {t : ℕ} {th new : Thread} (hth : T[t]? = some th)
    (hkey : new.key = th.key) {k : ℕ} (hk : k ≠ th.key)
    (hlook : lookupA eng' k = lookupA eng k)
    (hcount : flog'.count k = flog.count k)
    (hfs : FactoryState eng flog T k) :
    FactoryState eng' flog' (T.set t new) k := by
  have hnh : NoHave T k → NoHave (T.set t new) k := by
    intro hn u thu hu hk2 h2
    rcases set_getElem?_cases hth hu with ⟨rfl, rfl⟩ | ⟨hne, hu'⟩
    · exact fun _ => hk (hkey.symm.trans hk2).symm
    · exact hn u thu hu' hk2 h2
  rcases hfs with ⟨h1, h2, h3⟩ | ⟨h1, h2, u, thu, hh, hu, hk2, hpcu⟩ | ⟨hh, h1, h2, h3⟩
  · exact Or.inl ⟨hlook.trans h1, hcount.trans h2, hnh h3⟩
  · have hut : u ≠ t := by
      rintro rfl
      obtain rfl := Option.some.inj (hu.symm.trans hth)
      exact hk hk2.symm
    exact Or.inr (Or.inl ⟨hlook.trans h1, hcount.trans h2, u, thu, hh,
      by rwa [List.getElem?_set_ne (fun he => hut he.symm)], hk2, hpcu⟩)
  · exact Or.inr (Or.inr ⟨hh, hlook.trans h1, hcount.trans h2, hnh h3⟩)

theorem inv_step_start {s : CState} {t : ℕ} {th : Thread} (hinv : Inv s)
    (hth : s.threads[t]? = some th) (hpc : th.pc = TPc.start)
    (hg : s.globalHeld = none) :
    Inv { s with
          globalHeld := some t
          threads := s.threads.set t (th.setPc TPc.inRegistry) } := by
  refine ⟨?_, ?_, hinv.locks_nodup, hinv.lockHeld_nodup, hinv.lockLog_count,
    ?_, ?_, ?_, ?_, ?_, ?_⟩
  · intro u hu
    obtain rfl : t = u := Option.some.inj hu
    exact ⟨th.setPc TPc.inRegistry, set_getElem?_self _ hth, rfl⟩
  · intro u thu hu hreg
    rcases set_getElem?_cases hth hu with ⟨rfl, rfl⟩ | ⟨hne, hu'⟩
    · rfl
    · exact Option.noConfusion (hg.symm.trans (hinv.reg_global u thu hu' hreg))
  · intro u thu hu hpast
    rcases set_getElem?_cases hth hu with ⟨rfl, rfl⟩ | ⟨hne, hu'⟩
    · simp [Thread.setPc, TPc.pastRegistry] at hpast
    · exact hinv.gotLock_reg u thu hu' hpast
  · intro u thu hu hcrit
    rcases set_getElem?_cases hth hu with ⟨rfl, rfl⟩ | ⟨hne, hu'⟩
    · simp [Thread.setPc, TPc.inCrit] at hcrit
    · exact hinv.crit_holds u thu hu' hcrit
  · intro l u hl
    obtain ⟨thu, hu, hcrit, hgot⟩ := hinv.held_crit l u hl
    have hut : u ≠ t := by
      rintro rfl
      obtain rfl : thu = th := Option.some.inj (hu.symm.trans hth)
      rw [hpc] at hcrit
      simp [TPc.inCrit] at hcrit
    exact ⟨thu, by rwa [List.getElem?_set_ne (fun he => hut he.symm)], hcrit, hgot⟩
  · intro u thu hu hcr
    rcases set_getElem?_cases hth hu with ⟨rfl, rfl⟩ | ⟨hne, hu'⟩
    · simp [Thread.setPc, TPc.inCreate] at hcr
    · exact hinv.create_none u thu hu' hcr
  · intro u thu h hu hdone
    rcases set_getElem?_cases hth hu with ⟨rfl, rfl⟩ | ⟨hne, hu'⟩
    · simp [Thread.setPc] at hdone
    · exact hinv.done_cached u thu h hu' hdone
  · intro k
    exact factoryState_set_no_have hth (by rw [hpc]; simp) (by simp [Thread.setPc])
      k (hinv.factory_state k)

theorem inv_step_reg_found {s : CState} {t : ℕ} {th : Thread} {l : ℕ} (hinv : Inv s)
    (hth : s.threads[t]? = some th) (hpc : th.pc = TPc.inRegistry)
    (hl : lookupA s.locks th.key = some l) :
    Inv { s with
          globalHeld := none
          threads := s.threads.set t ({ th with pc := TPc.wantKey, gotLock := some l }) } := by
  have hgt : s.globalHeld = some t := hinv.reg_global t th hth hpc
  refine ⟨?_, ?_, hinv.locks_nodup, hinv.lockHeld_nodup, hinv.lockLog_count,
    ?_, ?_, ?_, ?_, ?_, ?_⟩
  · intro u hu
    exact Option.noConfusion hu
  · intro u thu hu hreg
    rcases set_getElem?_cases hth hu with ⟨rfl, rfl⟩ | ⟨hne, hu'⟩
    · simp at hreg
    · have h2 := hinv.reg_global u thu hu' hreg
      rw [hgt] at h2
      exact absurd (Option.some.inj h2).symm hne
  · intro u thu hu hpast
    rcases set_getElem?_cases hth hu with ⟨rfl, rfl⟩ | ⟨hne, hu'⟩
    · exact ⟨l, rfl, hl⟩
    · exact hinv.gotLock_reg u thu hu' hpast
  · intro u thu hu hcrit
    rcases set_getElem?_cases hth hu with ⟨rfl, rfl⟩ | ⟨hne, hu'⟩
    · simp [TPc.inCrit] at hcrit
    · exact hinv.crit_holds u thu hu' hcrit
  · intro l' u hl'
    obtain ⟨thu, hu, hcrit, hgot⟩ := hinv.held_crit l' u hl'
    have hut : u ≠ t := by
      rintro rfl
      obtain rfl : thu = th := Option.some.inj (hu.symm.trans hth)
      rw [hpc] at hcrit
      simp [TPc.inCrit] at hcrit
    exact ⟨thu, by rwa [List.getElem?_set_ne (fun he => hut he.symm)], hcrit, hgot⟩
  · intro u thu hu hcr
    rcases set_getElem?_cases hth hu with ⟨rfl, rfl⟩ | ⟨hne, hu'⟩
    · simp [TPc.inCreate] at hcr
    · exact hinv.create_none u thu hu' hcr
  · intro u thu h hu hdone
    rcases set_getElem?_cases hth hu with ⟨rfl, rfl⟩ | ⟨hne, hu'⟩
    · simp at hdone
    · exact hinv.done_cached u thu h hu' hdone
  · intro k
    exact factoryState_set_no_have hth (by rw [hpc]; simp) (by simp)
      k (hinv.factory_state k)

theorem inv_step_reg_new {s : CState} {t : ℕ} {th : Thread} (hinv : Inv s)
    (hth : s.threads[t]? = some th) (hpc : th.pc = TPc.inRegistry)
    (hl : lookupA s.locks th.key = none) :
    Inv { s with
          globalHeld := none
          locks := (th.key, s.nextLockId) :: s.locks
          nextLockId := s.nextLockId + 1
          lockLog := s.lockLog ++ [th.key]
          threads := s.threads.set t
            ({ th with pc := TPc.wantKey, gotLock := some s.nextLockId }) } := by
  have hgt : s.globalHeld = some t := hinv.reg_global t th hth hpc
  refine ⟨?_, ?_, ?_, hinv.lockHeld_nodup, ?_, ?_, ?_, ?_, ?_, ?_, ?_⟩
  · intro u hu
    exact Option.noConfusion hu
  · intro u thu hu hreg
    rcases set_getElem?_cases hth hu with ⟨rfl, rfl⟩ | ⟨hne, hu'⟩
    · simp at hreg
    · have h2 := hinv.reg_global u thu hu' hreg
      rw [hgt] at h2
      exact absurd (Option.some.inj h2).symm hne
  · simp only [List.map_cons]
    exact List.nodup_cons.mpr ⟨lookupA_none_not_mem _ _ hl, hinv.locks_nodup⟩
  · intro k
    have hold := hinv.lockLog_count k
    by_cases hk : k = th.key
    · subst hk
      rw [hl] at hold
      simp only [Option.isSome_none, Bool.false_eq_true, if_false] at hold
      rw [List.count_append, hold, lookupA_cons_self]
      simp
    · rw [List.count_append, lookupA_cons_ne _ _ _ _ hk]
      simp only [hold]
      have : [th.key].count k = 0 := by
        simp [List.count_singleton', hk]
      omega
  · intro u thu hu hpast
    rcases set_getElem?_cases hth hu with ⟨rfl, rfl⟩ | ⟨hne, hu'⟩
    · exact ⟨s.nextLockId, rfl, lookupA_cons_self _ _ _⟩
    · obtain ⟨l', hg', hr'⟩ := hinv.gotLock_reg u thu hu' hpast
      have hkne : thu.key ≠ th.key := by
        intro he
        rw [he, hl] at hr'
        exact Option.noConfusion hr'
      exact ⟨l', hg', by rw [lookupA_cons_ne _ _ _ _ hkne]; exact hr'⟩
  · intro u thu hu hcrit
    rcases set_getElem?_cases hth hu with ⟨rfl, rfl⟩ | ⟨hne, hu'⟩
    · simp [TPc.inCrit] at hcrit
    · exact hinv.crit_holds u thu hu' hcrit
  · intro l' u hl'
    obtain ⟨thu, hu, hcrit, hgot⟩ := hinv.held_crit l' u hl'
    have hut : u ≠ t := by
      rintro rfl
      obtain rfl : thu = th := Option.some.inj (hu.symm.trans hth)
      rw [hpc] at hcrit
      simp [TPc.inCrit] at hcrit
    exact ⟨thu, by rwa [List.getElem?_set_ne (fun he => hut he.symm)], hcrit, hgot⟩
  · intro u thu hu hcr
    rcases set_getElem?_cases hth hu with ⟨rfl, rfl⟩ | ⟨hne, hu'⟩
    · simp [TPc.inCreate] at hcr
    · exact hinv.create_none u thu hu' hcr
  · intro u thu h hu hdone
    rcases set_getElem?_cases hth hu with ⟨rfl, rfl⟩ | ⟨hne, hu'⟩
    · simp at hdone
    · exact hinv.done_cached u thu h hu' hdone
  · intro k
    exact factoryState_set_no_have hth (by rw [hpc]; simp) (by simp)
      k (hinv.factory_state k)

theorem inv_step_wantKey {s : CState} {t : ℕ} {th : Thread} {l : ℕ} (hinv : Inv s)
    (hth : s.threads[t]? = some th) (hpc : th.pc = TPc.wantKey)
    (hgot : th.gotLock = some l) (hl : lookupA s.lockHeld l = none) :
    Inv { s with
          lockHeld := (l, t) :: s.lockHeld
          threads := s.threads.set t (th.setPc TPc.locked) } := by
  refine ⟨?_, ?_, hinv.locks_nodup, ?_, hinv.lockLog_count, ?_, ?_, ?_, ?_, ?_, ?_⟩
  · intro u hu
    obtain ⟨thu, hu2, hreg⟩ := hinv.global_reg u hu
    have hut : u ≠ t := by
      rintro rfl
      obtain rfl : thu = th := Option.some.inj (hu2.symm.trans hth)
      rw [hpc] at hreg
      exact TPc.noConfusion hreg
    exact ⟨thu, by rwa [List.getElem?_set_ne (fun he => hut he.symm)], hreg⟩
  · intro u thu hu hreg
    rcases set_getElem?_cases hth hu with ⟨rfl, rfl⟩ | ⟨hne, hu'⟩
    · simp [Thread.setPc] at hreg
    · exact hinv.reg_global u thu hu' hreg
  · simp only [List.map_cons]
    exact List.nodup_cons.mpr ⟨lookupA_none_not_mem _ _ hl, hinv.lockHeld_nodup⟩
  · intro u thu hu hpast
    rcases set_getElem?_cases hth hu with ⟨rfl, rfl⟩ | ⟨hne, hu'⟩
    · exact hinv.gotLock_reg u th hth (by rw [hpc]; trivial)
    · exact hinv.gotLock_reg u thu hu' hpast
  · intro u thu hu hcrit
    rcases set_getElem?_cases hth hu with ⟨rfl, rfl⟩ | ⟨hne, hu'⟩
    · exact ⟨l, hgot, lookupA_cons_self _ _ _⟩
    · obtain ⟨l', hg', hh'⟩ := hinv.crit_holds u thu hu' hcrit
      have hlne : l' ≠ l := by
        rintro rfl
        rw [hl] at hh'
        exact Option.noConfusion hh'
      exact ⟨l', hg', by rw [lookupA_cons_ne _ _ _ _ hlne]; exact hh'⟩
  · intro l' u hl'
    by_cases hll : l' = l
    · subst hll
      rw [lookupA_cons_self] at hl'
      obtain rfl : t = u := Option.some.inj hl'
      exact ⟨th.setPc TPc.locked, set_getElem?_self _ hth, by trivial, hgot⟩
    · rw [lookupA_cons_ne _ _ _ _ hll] at hl'
      obtain ⟨thu, hu, hcrit, hgot'⟩ := hinv.held_crit l' u hl'
      have hut : u ≠ t := by
        rintro rfl
        obtain rfl : thu = th := Option.some.inj (hu.symm.trans hth)
        rw [hpc] at hcrit
        simp [TPc.inCrit] at hcrit
      exact ⟨thu, by rwa [List.getElem?_set_ne (fun he => hut he.symm)], hcrit, hgot'⟩
  · intro u thu hu hcr
    rcases set_getElem?_cases hth hu with ⟨rfl, rfl⟩ | ⟨hne, hu'⟩
    · simp [Thread.setPc, TPc.inCreate] at hcr
    · exact hinv.create_none u thu hu' hcr
  · intro u thu h hu hdone
    rcases set_getElem?_cases hth hu with ⟨rfl, rfl⟩ | ⟨hne, hu'⟩
    · simp [Thread.setPc] at hdone
    · exact hinv.done_cached u thu h hu' hdone
  · intro k
    exact factoryState_set_no_have hth (by rw [hpc]; simp) (by simp [Thread.setPc])
      k (hinv.factory_state k)

theorem inv_step_locked_hit {s : CState} {t : ℕ} {th : Thread} {l h : ℕ} (hinv : Inv s)
    (hth : s.threads[t]? = some th) (hpc : th.pc = TPc.locked)
    (hgot : th.gotLock = some l) (hl : lookupA s.engines th.key = some h) :
    Inv { s with
          lockHeld := eraseA s.lockHeld l
          threads := s.threads.set t (th.setPc (TPc.done h)) } := by
  have hcr : th.pc.inCrit := by rw [hpc]; trivial
  obtain ⟨l₂, hg₂, hh₂⟩ := hinv.crit_holds t th hth hcr
  obtain rfl : l₂ = l := Option.some.inj (hg₂.symm.trans hgot)
  refine ⟨?_, ?_, hinv.locks_nodup, nodup_eraseA _ _ hinv.lockHeld_nodup,
    hinv.lockLog_count, ?_, ?_, ?_, ?_, ?_, ?_⟩
  · intro u hu
    obtain ⟨thu, hu2, hreg⟩ := hinv.global_reg u hu
    have hut : u ≠ t := by
      rintro rfl
      obtain rfl : thu = th := Option.some.inj (hu2.symm.trans hth)
      rw [hpc] at hreg
      exact TPc.noConfusion hreg
    exact ⟨thu, by rwa [List.getElem?_set_ne (fun he => hut he.symm)], hreg⟩
  · intro u thu hu hreg
    rcases set_getElem?_cases hth hu with ⟨rfl, rfl⟩ | ⟨hne, hu'⟩
    · simp [Thread.setPc] at hreg
    · exact hinv.reg_global u thu hu' hreg
  · intro u thu hu hpast
    rcases set_getElem?_cases hth hu with ⟨rfl, rfl⟩ | ⟨hne, hu'⟩
    · exact hinv.gotLock_reg u th hth (by rw [hpc]; trivial)
    · exact hinv.gotLock_reg u thu hu' hpast
  · intro u thu hu hcrit
    rcases set_getElem?_cases hth hu with ⟨rfl, rfl⟩ | ⟨hne, hu'⟩
    · simp [Thread.setPc, TPc.inCrit] at hcrit
    · obtain ⟨l', hg', hh'⟩ := hinv.crit_holds u thu hu' hcrit
      have hlne : l' ≠ l₂ := by
        rintro rfl
        exact hne (Option.some.inj (hh'.symm.trans hh₂))
      exact ⟨l', hg', by rw [lookupA_eraseA_ne _ _ _ hlne]; exact hh'⟩
  · intro l' u hl'
    by_cases hll : l' = l₂
    · subst hll
      rw [lookupA_eraseA_self _ _ hinv.lockHeld_nodup] at hl'
      exact Option.noConfusion hl'
    · rw [lookupA_eraseA_ne _ _ _ hll] at hl'
      obtain ⟨thu, hu, hcrit, hgot'⟩ := hinv.held_crit l' u hl'
      have hut : u ≠ t := by
        rintro rfl
        obtain rfl : thu = th := Option.some.inj (hu.symm.trans hth)
        exact hll (Option.some.inj (hgot'.symm.trans hgot))
      exact ⟨thu, by rwa [List.getElem?_set_ne (fun he => hut he.symm)], hcrit, hgot'⟩
  · intro u thu hu hcr2
    rcases set_getElem?_cases hth hu with ⟨rfl, rfl⟩ | ⟨hne, hu'⟩
    · simp [Thread.setPc, TPc.inCreate] at hcr2
    · exact hinv.create_none u thu hu' hcr2
  · intro u thu h' hu hdone
    rcases set_getElem?_cases hth hu with ⟨rfl, rfl⟩ | ⟨hne, hu'⟩
    · have hhh : h = h' := by simpa [Thread.setPc] using hdone
      rw [← hhh]
      exact hl
    · exact hinv.done_cached u thu h' hu' hdone
  · intro k
    exact factoryState_set_no_have hth (by rw [hpc]; simp) (by simp [Thread.setPc])
      k (hinv.factory_state k)

theorem inv_step_locked_miss {s : CState} {t : ℕ} {th : Thread} (hinv : Inv s)
    (hth : s.threads[t]? = some th) (hpc : th.pc = TPc.locked)
    (hl : lookupA s.engines th.key = none) :
    Inv { s with threads := s.threads.set t (th.setPc TPc.creating) } := by
  have hcr : th.pc.inCrit := by rw [hpc]; trivial
  refine ⟨?_, ?_, hinv.locks_nodup, hinv.lockHeld_nodup, hinv.lockLog_count,
    ?_, ?_, ?_, ?_, ?_, ?_⟩
  · intro u hu
    obtain ⟨thu, hu2, hreg⟩ := hinv.global_reg u hu
    have hut : u ≠ t := by
      rintro rfl
      obtain rfl : thu = th := Option.some.inj (hu2.symm.trans hth)
      rw [hpc] at hreg
      exact TPc.noConfusion hreg
    exact ⟨thu, by rwa [List.getElem?_set_ne (fun he => hut he.symm)], hreg⟩
  · intro u thu hu hreg
    rcases set_getElem?_cases hth hu with ⟨rfl, rfl⟩ | ⟨hne, hu'⟩
    · simp [Thread.setPc] at hreg
    · exact hinv.reg_global u thu hu' hreg
  · intro u thu hu hpast
    rcases set_getElem?_cases hth hu with ⟨rfl, rfl⟩ | ⟨hne, hu'⟩
    · exact hinv.gotLock_reg u th hth (by rw [hpc]; trivial)
    · exact hinv.gotLock_reg u thu hu' hpast
  · intro u thu hu hcrit
    rcases set_getElem?_cases hth hu with ⟨rfl, rfl⟩ | ⟨hne, hu'⟩
    · exact hinv.crit_holds u th hth hcr
    · exact hinv.crit_holds u thu hu' hcrit
  · intro l' u hl'
    obtain ⟨thu, hu, hcrit, hgot'⟩ := hinv.held_crit l' u hl'
    by_cases hut : u = t
    · subst hut
      obtain rfl : thu = th := Option.some.inj (hu.symm.trans hth)
      exact ⟨thu.setPc TPc.creating, set_getElem?_self _ hth, by trivial, hgot'⟩
    · exact ⟨thu, by rwa [List.getElem?_set_ne (fun he => hut he.symm)], hcrit, hgot'⟩
  · intro u thu hu hcr2
    rcases set_getElem?_cases hth hu with ⟨rfl, rfl⟩ | ⟨hne, hu'⟩
    · exact hl
    · exact hinv.create_none u thu hu' hcr2
  · intro u thu h' hu hdone
    rcases set_getElem?_cases hth hu with ⟨rfl, rfl⟩ | ⟨hne, hu'⟩
    · simp [Thread.setPc] at hdone
    · exact hinv.done_cached u thu h' hu' hdone
  · intro k
    exact factoryState_set_no_have hth (by rw [hpc]; simp) (by simp [Thread.setPc])
      k (hinv.factory_state k)

theorem inv_step_creating {s : CState} {t : ℕ} {th : Thread} (hinv : Inv s)
    (hth : s.threads[t]? = some th) (hpc : th.pc = TPc.creating) :
    Inv { s with
          factoryLog := s.factoryLog ++ [th.key]
          nextHandle := s.nextHandle + 1
          threads := s.threads.set t (th.setPc (TPc.haveHandle s.nextHandle)) } := by
  have hcr : th.pc.inCrit := by rw [hpc]; trivial
  have hcn : lookupA s.engines th.key = none :=
    hinv.create_none t th hth (by rw [hpc]; trivial)
  refine ⟨?_, ?_, hinv.locks_nodup, hinv.lockHeld_nodup, hinv.lockLog_count,
    ?_, ?_, ?_, ?_, ?_, ?_⟩
  · intro u hu
    obtain ⟨thu, hu2, hreg⟩ := hinv.global_reg u hu
    have hut : u ≠ t := by
      rintro rfl
      obtain rfl : thu = th := Option.some.inj (hu2.symm.trans hth)
      rw [hpc] at hreg
      exact TPc.noConfusion hreg
    exact ⟨thu, by rwa [List.getElem?_set_ne (fun he => hut he.symm)], hreg⟩
  · intro u thu hu hreg
    rcases set_getElem?_cases hth hu with ⟨rfl, rfl⟩ | ⟨hne, hu'⟩
    · simp [Thread.setPc] at hreg
    · exact hinv.reg_global u thu hu' hreg
  · intro u thu hu hpast
    rcases set_getElem?_cases hth hu with ⟨rfl, rfl⟩ | ⟨hne, hu'⟩
    · exact hinv.gotLock_reg u th hth (by rw [hpc]; trivial)
    · exact hinv.gotLock_reg u thu hu' hpast
  · intro u thu hu hcrit
    rcases set_getElem?_cases hth hu with ⟨rfl, rfl⟩ | ⟨hne, hu'⟩
    · exact hinv.crit_holds u th hth hcr
    · exact hinv.crit_holds u thu hu' hcrit
  · intro l' u hl'
    obtain ⟨thu, hu, hcrit, hgot'⟩ := hinv.held_crit l' u hl'
    by_cases hut : u = t
    · subst hut
      obtain rfl : thu = th := Option.some.inj (hu.symm.trans hth)
      exact ⟨thu.setPc (TPc.haveHandle s.nextHandle), set_getElem?_self _ hth,
        by trivial, hgot'⟩
    · exact ⟨thu, by rwa [List.getElem?_set_ne (fun he => hut he.symm)], hcrit, hgot'⟩
  · intro u thu hu hcr2
    rcases set_getElem?_cases hth hu with ⟨rfl, rfl⟩ | ⟨hne, hu'⟩
    · exact hcn
    · exact hinv.create_none u thu hu' hcr2
  · intro u thu h' hu hdone
    rcases set_getElem?_cases hth hu with ⟨rfl, rfl⟩ | ⟨hne, hu'⟩
    · simp [Thread.setPc] at hdone
    · exact hinv.done_cached u thu h' hu' hdone
  · intro k
    by_cases hk : k = th.key
    · subst hk
      rcases hinv.factory_state th.key with ⟨h1, h2, h3⟩ |
        ⟨h1, h2, u, thu, hh, hu, hk2, hpcu⟩ | ⟨hh, h1, h2, h3⟩
      · refine Or.inr (Or.inl ⟨h1, ?_, t, th.setPc (TPc.haveHandle s.nextHandle),
          s.nextHandle, set_getElem?_self _ hth, rfl, rfl⟩)
        rw [List.count_append, h2]
        simp
      · exfalso
        have hcru : thu.pc.inCrit := by rw [hpcu]; trivial
        have hut := hinv.mutex hu hth hcru hcr hk2
        subst hut
        obtain rfl : thu = th := Option.some.inj (hu.symm.trans hth)
        rw [hpc] at hpcu
        exact TPc.noConfusion hpcu
      · rw [hcn] at h1
        exact Option.noConfusion h1
    · refine factoryState_set_other_key hth (by simp [Thread.setPc]) hk rfl ?_
        (hinv.factory_state k)
      rw [List.count_append]
      have hz : [th.key].count k = 0 := by simp [List.count_singleton', hk]
      omega

theorem inv_step_haveHandle {s : CState} {t : ℕ} {th : Thread} {l h : ℕ} (hinv : Inv s)
    (hth : s.threads[t]? = some th) (hpc : th.pc = TPc.haveHandle h)
    (hgot : th.gotLock = some l) :
    Inv { s with
          engines := (th.key, h) :: s.engines
          lockHeld := eraseA s.lockHeld l
          threads := s.threads.set t (th.setPc (TPc.done h)) } := by
  have hcr : th.pc.inCrit := by rw [hpc]; trivial
  have hcn : lookupA s.engines th.key = none :=
    hinv.create_none t th hth (by rw [hpc]; trivial)
  have hh₂ : lookupA s.lockHeld l = some t := by
    obtain ⟨l₂, hg₂, hh₂⟩ := hinv.crit_holds t th hth hcr
    rwa [Option.some.inj (hg₂.symm.trans hgot)] at hh₂
  refine ⟨?_, ?_, hinv.locks_nodup, nodup_eraseA _ _ hinv.lockHeld_nodup,
    hinv.lockLog_count, ?_, ?_, ?_, ?_, ?_, ?_⟩
  · intro u hu
    obtain ⟨thu, hu2, hreg⟩ := hinv.global_reg u hu
    have hut : u ≠ t := by
      rintro rfl
      obtain rfl : thu = th := Option.some.inj (hu2.symm.trans hth)
      rw [hpc] at hreg
      exact TPc.noConfusion hreg
    exact ⟨thu, by rwa [List.getElem?_set_ne (fun he => hut he.symm)], hreg⟩
  · intro u thu hu hreg
    rcases set_getElem?_cases hth hu with ⟨rfl, rfl⟩ | ⟨hne, hu'⟩
    · simp [Thread.setPc] at hreg
    · exact hinv.reg_global u thu hu' hreg
  · intro u thu hu hpast
    rcases set_getElem?_cases hth hu with ⟨rfl, rfl⟩ | ⟨hne, hu'⟩
    · exact hinv.gotLock_reg u th hth (by rw [hpc]; trivial)
    · exact hinv.gotLock_reg u thu hu' hpast
  · intro u thu hu hcrit
    rcases set_getElem?_cases hth hu with ⟨rfl, rfl⟩ | ⟨hne, hu'⟩
    · simp [Thread.setPc, TPc.inCrit] at hcrit
    · obtain ⟨l', hg', hh'⟩ := hinv.crit_holds u thu hu' hcrit
      have hlne : l' ≠ l := by
        rintro rfl
        exact hne (Option.some.inj (hh'.symm.trans hh₂))
      exact ⟨l', hg', by rw [lookupA_eraseA_ne _ _ _ hlne]; exact hh'⟩
  · intro l' u hl'
    by_cases hll : l' = l
    · subst hll
      rw [lookupA_eraseA_self _ _ hinv.lockHeld_nodup] at hl'
      exact Option.noConfusion hl'
    · rw [lookupA_eraseA_ne _ _ _ hll] at hl'
      obtain ⟨thu, hu, hcrit, hgot'⟩ := hinv.held_crit l' u hl'
      have hut : u ≠ t := by
        rintro rfl
        obtain rfl : thu = th := Option.some.inj (hu.symm.trans hth)
        exact hll (Option.some.inj (hgot'.symm.trans hgot))
      exact ⟨thu, by rwa [List.getElem?_set_ne (fun he => hut he.symm)], hcrit, hgot'⟩
  · intro u thu hu hcr2
    rcases set_getElem?_cases hth hu with ⟨rfl, rfl⟩ | ⟨hne, hu'⟩
    · simp [Thread.setPc, TPc.inCreate] at hcr2
    · have hold := hinv.create_none u thu hu' hcr2
      have hkne : thu.key ≠ th.key := by
        intro he
        have hcru : thu.pc.inCrit := TPc.inCreate_inCrit hcr2
        exact hne (hinv.mutex hu' hth hcru hcr he)
      rw [lookupA_cons_ne _ _ _ _ hkne]
      exact hold
  · intro u thu h' hu hdone
    rcases set_getElem?_cases hth hu with ⟨rfl, rfl⟩ | ⟨hne, hu'⟩
    · have hhh : h = h' := by simpa [Thread.setPc] using hdone
      rw [← hhh]
      exact lookupA_cons_self _ _ _
    · have hold := hinv.done_cached u thu h' hu' hdone
      have hkne : thu.key ≠ th.key := by
        intro he
        rw [he, hcn] at hold
        exact Option.noConfusion hold
      rw [lookupA_cons_ne _ _ _ _ hkne]
      exact hold
  · intro k
    by_cases hk : k = th.key
    · subst hk
      rcases hinv.factory_state th.key with ⟨h1, h2, h3⟩ |
        ⟨h1, h2, u, thu, hh, hu, hk2, hpcu⟩ | ⟨hh, h1, h2, h3⟩
      · exact absurd hpc (h3 t th hth rfl h)
      · refine Or.inr (Or.inr ⟨h, lookupA_cons_self _ _ _, h2, ?_⟩)
        intro v thv hv hkv h2'
        rcases set_getElem?_cases hth hv with ⟨rfl, rfl⟩ | ⟨hne, hv'⟩
        · simp [Thread.setPc]
        · intro heq
          have hcrv : thv.pc.inCrit := by rw [heq]; trivial
          exact hne (hinv.mutex hv' hth hcrv hcr hkv)
      · rw [hcn] at h1
        exact Option.noConfusion h1
    · exact factoryState_set_other_key hth (by simp [Thread.setPc]) hk
        (lookupA_cons_ne _ _ _ _ hk) rfl (hinv.factory_state k)

/-- Preservation: every step of every thread preserves the invariant. -/
theorem inv_step {s s' : CState} {t : ℕ} (hinv : Inv s) (hst : step t s = some s') :
    Inv s' := by
  unfold step at hst
  split at hst
  · exact Option.noConfusion hst
  next th hth =>
    split at hst
    case _ hpc =>
      split at hst
      case _ v hg => exact Option.noConfusion hst
      case _ hg =>
        obtain rfl := Option.some.inj hst
        exact inv_step_start hinv hth hpc hg
    case _ hpc =>
      split at hst
      case _ l hl =>
        obtain rfl := Option.some.inj hst
        exact inv_step_reg_found hinv hth hpc hl
      case _ hl =>
        obtain rfl := Option.some.inj hst
        exact inv_step_reg_new hinv hth hpc hl
    case _ hpc =>
      split at hst
      case _ hgl => exact Option.noConfusion hst
      case _ l hgl =>
        split at hst
        case _ v hlh => exact Option.noConfusion hst
        case _ hlh =>
          obtain rfl := Option.some.inj hst
          exact inv_step_wantKey hinv hth hpc hgl hlh
    case _ hpc =>
      split at hst
      case _ hgl => exact Option.noConfusion hst
      case _ l hgl =>
        split at hst
        case _ h hle =>
          obtain rfl := Option.some.inj hst
          exact inv_step_locked_hit hinv hth hpc hgl hle
        case _ hle =>
          obtain rfl := Option.some.inj hst
          exact inv_step_locked_miss hinv hth hpc hle
    case _ hpc =>
      obtain rfl := Option.some.inj hst
      exact inv_step_creating hinv hth hpc
    case _ h hpc =>
      split at hst
      case _ hgl => exact Option.noConfusion hst
      case _ l hgl =>
        obtain rfl := Option.some.inj hst
        exact inv_step_haveHandle hinv hth hpc hgl
    case _ h hpc => exact Option.noConfusion hst

theorem startCState_thread {keys : List ℕ} {u : ℕ} {thu : Thread}
    (hu : (startCState keys).threads[u]? = some thu) :
    ∃ k, thu = ⟨k, TPc.start, none⟩ := by
  simp only [startCState] at hu
  rw [List.getElem?_map] at hu
  obtain ⟨k, hk, hfk⟩ := Option.map_eq_some'.mp hu
  exact ⟨k, hfk.symm⟩

/-- The process-start state satisfies the invariant. -/
theorem inv_start (keys : List ℕ) : Inv (startCState keys) := by
  refine ⟨?_, ?_, ?_, ?_, ?_, ?_, ?_, ?_, ?_, ?_, ?_⟩
  · intro u hu
    exact Option.noConfusion hu
  · intro u thu hu hreg
    obtain ⟨k, rfl⟩ := startCState_thread hu
    exact TPc.noConfusion hreg
  · simp [startCState]
  · simp [startCState]
  · intro k
    simp [startCState, lookupA]
  · intro u thu hu hpast
    obtain ⟨k, rfl⟩ := startCState_thread hu
    simp [TPc.pastRegistry] at hpast
  · intro u thu hu hcrit
    obtain ⟨k, rfl⟩ := startCState_thread hu
    simp [TPc.inCrit] at hcrit
  · intro l u hl
    exact Option.noConfusion hl
  · intro u thu hu hcr
    obtain ⟨k, rfl⟩ := startCState_thread hu
    simp [TPc.inCreate] at hcr
  · intro u thu h hu hdone
    obtain ⟨k, rfl⟩ := startCState_thread hu
    exact TPc.noConfusion hdone
  · intro k
    refine Or.inl ⟨rfl, rfl, ?_⟩
    intro u thu hu hk h
    obtain ⟨k', rfl⟩ := startCState_thread hu
    exact TPc.noConfusion

/-- Every state reachable from a start state satisfies the invariant. -/
theorem inv_reaches {keys : List ℕ} {s : CState}
    (hr : Reaches (startCState keys) s) : Inv s := by
  induction hr with
  | refl => exact inv_start keys
  | tail hr hstep ih =>
    obtain ⟨t, hst⟩ := hstep
    exact inv_step ih hst

theorem chain_none (ts : List ℕ) :
    ts.foldl (fun acc t => Option.bind acc (step t)) none = none := by
  induction ts with
  | nil => rfl
  | cons t ts ih => exact ih

/-- A concrete schedule (list of thread ids whose steps all succeed) yields
reachability. -/
theorem reaches_of_chain : ∀ (ts : List ℕ) (s s' : CState),
    ts.foldl (fun acc t => Option.bind acc (step t)) (some s) = some s' →
    Reaches s s' := by
  intro ts
  induction ts with
  | nil =>
    intro s s' h
    obtain rfl := Option.some.inj h
    exact Relation.ReflTransGen.refl
  | cons t ts ih =>
    intro s s' h
    rw [List.foldl_cons] at h
    have hb : Option.bind (some s) (step t) = step t s := rfl
    rw [hb] at h
    cases hstep : step t s with
    | none =>
      rw [hstep, chain_none] at h
      exact Option.noConfusion h
    | some s1 =>
      rw [hstep] at h
      exact Relation.ReflTransGen.head ⟨t, hstep⟩ (ih s1 s' h)

/-- C1: in every state reachable from a process start (any number of threads, each
calling the get-or-create function — `get_engine` or `get_agent_executor` — once for an
arbitrary key), under every interleaving: the factory for each key has run at most once,
and exactly once with its result cached as soon as any caller for that key has returned;
any two finished callers for a key returned the same handle; at most one thread is
inside the creation routine for a key at a time; and a thread inside the creation
routine holds that key's per-key lock — the cache miss that admitted it was checked
after acquiring that lock (see `step`). -/
theorem factory_exactly_once (keys : List ℕ) (s : CState)
    (hr : Reaches (startCState keys) s) :
    (∀ k, s.factoryLog.count k ≤ 1) ∧
    (∀ (t : ℕ) (th : Thread) (h : ℕ), s.threads[t]? = some th → th.pc = TPc.done h →
      s.factoryLog.count th.key = 1 ∧ lookupA s.engines th.key = some h) ∧
    (∀ (t u : ℕ) (th thu : Thread) (h h' : ℕ), s.threads[t]? = some th →
      s.threads[u]? = some thu → th.key = thu.key →
      th.pc = TPc.done h → thu.pc = TPc.done h' → h = h') ∧
    (∀ (t u : ℕ) (th thu : Thread), s.threads[t]? = some th → s.threads[u]? = some thu →
      th.key = thu.key → th.pc.inCreate → thu.pc.inCreate → t = u) ∧
    (∀ (t : ℕ) (th : Thread), s.threads[t]? = some th → th.pc.inCreate →
      ∃ l, th.gotLock = some l ∧ lookupA s.locks th.key = some l ∧
        lookupA s.lockHeld l = some t) := by
  have hinv := inv_reaches hr
  refine ⟨?_, ?_, ?_, ?_, ?_⟩
  · intro k
    rcases hinv.factory_state k with ⟨_, h2, _⟩ | ⟨_, h2, _⟩ | ⟨_, _, h2, _⟩ <;> omega
  · intro t th h hth hdone
    have hc := hinv.done_cached t th h hth hdone
    refine ⟨?_, hc⟩
    rcases hinv.factory_state th.key with ⟨h1, _, _⟩ | ⟨h1, _, _⟩ | ⟨_, _, h2, _⟩
    · rw [hc] at h1
      exact Option.noConfusion h1
    · rw [hc] at h1
      exact Option.noConfusion h1
    · exact h2
  · intro t u th thu h h' hth hthu hk hd1 hd2
    have c1 := hinv.done_cached t th h hth hd1
    have c2 := hinv.done_cached u thu h' hthu hd2
    rw [hk] at c1
    exact Option.some.inj (c1.symm.trans c2)
  · intro t u th thu hth hthu hk hc1 hc2
    exact hinv.mutex hth hthu (TPc.inCreate_inCrit hc1) (TPc.inCreate_inCrit hc2) hk
  · intro t th hth hc
    obtain ⟨l, hg, hr2⟩ :=
      hinv.gotLock_reg t th hth (TPc.inCrit_pastRegistry (TPc.inCreate_inCrit hc))
    obtain ⟨l', hg', hh'⟩ := hinv.crit_holds t th hth (TPc.inCreate_inCrit hc)
    rw [Option.some.inj (hg'.symm.trans hg)] at hh'
    exact ⟨l, hg, hr2, hh'⟩

/-- Witness for `factory_exactly_once`: two threads race for key 5 from a fresh start;
after the schedule 0,0,0,0,0,0,1,1,1,1 both are finished, the factory ran exactly once
and both observed the cached handle 0. -/
theorem factory_exactly_once_witness :
    (CState.mk none [(5, 0)] 1 [5] [] [(5, 0)] 1 [5]
      [Thread.mk 5 (TPc.done 0) (some 0), Thread.mk 5 (TPc.done 0) (some 0)]).factoryLog.count 5 ≤ 1 ∧
    (CState.mk none [(5, 0)] 1 [5] [] [(5, 0)] 1 [5]
      [Thread.mk 5 (TPc.done 0) (some 0), Thread.mk 5 (TPc.done 0) (some 0)]).factoryLog.count 5 = 1 ∧
    lookupA (CState.mk none [(5, 0)] 1 [5] [] [(5, 0)] 1 [5]
      [Thread.mk 5 (TPc.done 0) (some 0), Thread.mk 5 (TPc.done 0) (some 0)]).engines 5 = some 0 := by
  have H := factory_exactly_once [5, 5]
    (CState.mk none [(5, 0)] 1 [5] [] [(5, 0)] 1 [5]
      [Thread.mk 5 (TPc.done 0) (some 0), Thread.mk 5 (TPc.done 0) (some 0)])
    (reaches_of_chain [0, 0, 0, 0, 0, 0, 1, 1, 1, 1] _ _ (by decide))
  exact ⟨H.1 5, (H.2.1 0 (Thread.mk 5 (TPc.done 0) (some 0)) 0 rfl rfl).1,
    (H.2.1 0 (Thread.mk 5 (TPc.done 0) (some 0)) 0 rfl rfl).2⟩

/-- C8: in every reachable state: any two threads that obtained a per-key lock object
for the same key hold the very same object, which is the one the registry stores for
that key; at most one `Lock()` was ever constructed and stored per key (the
check-or-insert runs under the registry-wide `global_lock`); and the registry guard is
only ever held by a thread at the check-or-insert itself — never by one that is past its
`get_lock` call and acquiring, holding or releasing the returned per-key lock. -/
theorem lock_registry_agreement (keys : List ℕ) (s : CState)
    (hr : Reaches (startCState keys) s) :
    (∀ (t u : ℕ) (th thu : Thread) (l l' : ℕ), s.threads[t]? = some th →
      s.threads[u]? = some thu → th.key = thu.key →
      th.pc.pastRegistry → thu.pc.pastRegistry →
      th.gotLock = some l → thu.gotLock = some l' → l = l') ∧
    (∀ k, s.lockLog.count k ≤ 1) ∧
    (∀ (t : ℕ) (th : Thread) (l : ℕ), s.threads[t]? = some th → th.pc.pastRegistry →
      th.gotLock = some l → lookupA s.locks th.key = some l) ∧
    (∀ t, s.globalHeld = some t →
      ∃ th : Thread, s.threads[t]? = some th ∧ th.pc = TPc.inRegistry ∧
        ¬ th.pc.pastRegistry) := by
  have hinv := inv_reaches hr
  refine ⟨?_, ?_, ?_, ?_⟩
  · intro t u th thu l l' hth hthu hk hp1 hp2 hg1 hg2
    obtain ⟨l1, hga, hra⟩ := hinv.gotLock_reg t th hth hp1
    obtain ⟨l2, hgb, hrb⟩ := hinv.gotLock_reg u thu hthu hp2
    rw [Option.some.inj (hga.symm.trans hg1)] at hra
    rw [Option.some.inj (hgb.symm.trans hg2)] at hrb
    rw [hk] at hra
    exact Option.some.inj (hra.symm.trans hrb)
  · intro k
    have hc := hinv.lockLog_count k
    cases hik : (lookupA s.locks k).isSome <;> rw [hik] at hc <;> simp at hc <;> omega
  · intro t th l hth hp hg
    obtain ⟨l1, hga, hra⟩ := hinv.gotLock_reg t th hth hp
    rwa [Option.some.inj (hga.symm.trans hg)] at hra
  · intro t hg
    obtain ⟨th, hth, hpc⟩ := hinv.global_reg t hg
    refine ⟨th, hth, hpc, ?_⟩
    rw [hpc]
    simp [TPc.pastRegistry]

/-- Witness for `lock_registry_agreement`: the same two-thread race for key 5; both
threads hold lock object 0, exactly one `Lock()` was created for key 5, and the registry
guard is free. -/
theorem lock_registry_agreement_witness :
    ((0 : ℕ) = 0) ∧
    (CState.mk none [(5, 0)] 1 [5] [] [(5, 0)] 1 [5]
      [Thread.mk 5 (TPc.done 0) (some 0), Thread.mk 5 (TPc.done 0) (some 0)]).lockLog.count 5 ≤ 1 ∧
    lookupA (CState.mk none [(5, 0)] 1 [5] [] [(5, 0)] 1 [5]
      [Thread.mk 5 (TPc.done 0) (some 0), Thread.mk 5 (TPc.done 0) (some 0)]).locks 5 = some 0 := by
  have H := lock_registry_agreement [5, 5]
    (CState.mk none [(5, 0)] 1 [5] [] [(5, 0)] 1 [5]
      [Thread.mk 5 (TPc.done 0) (some 0), Thread.mk 5 (TPc.done 0) (some 0)])
    (reaches_of_chain [0, 0, 0, 0, 0, 0, 1, 1, 1, 1] _ _ (by decide))
  refine ⟨?_, H.2.1 5, ?_⟩
  · exact H.1 0 1 (Thread.mk 5 (TPc.done 0) (some 0)) (Thread.mk 5 (TPc.done 0) (some 0))
      0 0 rfl rfl rfl trivial trivial rfl rfl
  · exact H.2.2.1 0 (Thread.mk 5 (TPc.done 0) (some 0)) 0 rfl trivial rfl

end PropCore
